import Mathlib

/-!
A shallow embedding of `EliminateDeadConstantPass::Process`
(`source/opt/eliminate_dead_constant_pass.cpp`) together with models of the
collaborator interfaces it consumes (constant enumeration, the def-use index,
opcode classification, and the kill operations), and proofs of the design
properties of the pass: use-count computation, backward fixpoint propagation,
dead-metadata discovery, deletion and status reporting.
-/

namespace SpvOpt

/-- The opcodes relevant to the pass.  Constant-defining opcodes, the metadata
opcode categories, and representatives for type-defining and ordinary
value-consuming instructions; `OpOther` stands for any other opcode. -/
inductive SpvOp where
  | OpNop
  | OpConstantTrue
  | OpConstantFalse
  | OpConstant
  | OpConstantComposite
  | OpConstantNull
  | OpSpecConstantTrue
  | OpSpecConstantFalse
  | OpSpecConstant
  | OpSpecConstantComposite
  | OpSpecConstantOp
  | OpDecorate
  | OpSource
  | OpName
  | OpModuleProcessed
  | OpTypeInt
  | OpStore
  | OpOther
  deriving DecidableEq, Repr

/-- Operand type tags: `Id` corresponds to `SPV_OPERAND_TYPE_ID`; a
specialization-constant-operation embeds its sub-opcode as a `SubOpcode`
operand; `Literal` is any other non-reference operand. -/
inductive OperandType where
  | Id
  | Literal
  | SubOpcode
  deriving DecidableEq, Repr

/-- An operand: a type tag and its word payload (an identifier when the tag is
`Id`, otherwise a literal/sub-opcode value). -/
structure Operand where
  ty : OperandType
  word : Nat
  deriving DecidableEq, Repr

/-- An instruction: opcode, result identifier (`0` when the instruction defines
no result, as in the C++ representation) and the ordered input operands. -/
structure Instruction where
  opcode : SpvOp
  result_id : Nat
  inOperands : List Operand
  deriving DecidableEq, Repr

/-- `Instruction::NumInOperands`. -/
def Instruction.NumInOperands (inst : Instruction) : Nat :=
  inst.inOperands.length

/-- `Instruction::GetInOperand`. -/
def Instruction.GetInOperand (inst : Instruction) (i : Nat) : Operand :=
  inst.inOperands.getD i ⟨OperandType.Literal, 0⟩

/-- `Instruction::GetSingleWordInOperand`. -/
def Instruction.GetSingleWordInOperand (inst : Instruction) (i : Nat) : Nat :=
  (inst.GetInOperand i).word

/-- A module: the ordered sequence of its instructions.  Instructions are
identified by their position in this list (the embedding's stand-in for the
C++ `ir::Instruction*` pointers). -/
structure Module where
  insts : List Instruction
  deriving DecidableEq, Repr

/-- The nop instruction, the replacement installed by the kill operations. -/
def nopInst : Instruction := ⟨SpvOp.OpNop, 0, []⟩

/-- The instruction at index `i` (nop when out of range). -/
def instAt (m : Module) (i : Nat) : Instruction :=
  m.insts.getD i nopInst

/-- Modelled from the spec: `classify(opcode) = Annotation`
(`ir::IsAnnotationInst` of `reflect.h`, which is not part of the sources). -/
def IsAnnotationInst (op : SpvOp) : Bool :=
  op = SpvOp.OpDecorate

/-- Modelled from the spec: `classify(opcode) = Debug1`
(`ir::IsDebug1Inst` of `reflect.h`, source-level debug info). -/
def IsDebug1Inst (op : SpvOp) : Bool :=
  op = SpvOp.OpSource

/-- Modelled from the spec: `classify(opcode) = Debug2`
(`ir::IsDebug2Inst` of `reflect.h`, name debug info). -/
def IsDebug2Inst (op : SpvOp) : Bool :=
  op = SpvOp.OpName

/-- Modelled from the spec: `classify(opcode) = Debug3`
(`ir::IsDebug3Inst` of `reflect.h`). -/
def IsDebug3Inst (op : SpvOp) : Bool :=
  op = SpvOp.OpModuleProcessed

/-- An opcode of the metadata class: annotation or any debug tier.  This is
the disjunction tested at both metadata checks of the pass. -/
def IsMetadataInst (op : SpvOp) : Bool :=
  IsAnnotationInst op || IsDebug1Inst op || IsDebug2Inst op || IsDebug3Inst op

/-- Modelled from the spec: which opcodes define constants, i.e. which
instructions `IRContext::GetConstants` enumerates ("all constant /
spec-constant-defining instructions"). -/
def IsConstantInst (op : SpvOp) : Bool :=
  op = SpvOp.OpConstantTrue || op = SpvOp.OpConstantFalse ||
  op = SpvOp.OpConstant || op = SpvOp.OpConstantComposite ||
  op = SpvOp.OpConstantNull || op = SpvOp.OpSpecConstantTrue ||
  op = SpvOp.OpSpecConstantFalse || op = SpvOp.OpSpecConstant ||
  op = SpvOp.OpSpecConstantComposite || op = SpvOp.OpSpecConstantOp

/-- Modelled from the spec: `enumerate_constants(module)` /
`IRContext::GetConstants` — the ordered sequence of the module's
constant-defining instructions, as indices into `m.insts`. -/
def GetConstants (m : Module) : List Nat :=
  (List.range m.insts.length).filter (fun j => IsConstantInst (instAt m j).opcode)

/-- Modelled from the spec: `get_definition(id)` / `DefUseManager::GetDef` —
the defining instruction of a (nonzero) identifier, `none` when no
instruction defines it. -/
def GetDef (m : Module) (id : Nat) : Option Nat :=
  if id = 0 then none
  else (List.range m.insts.length).find? (fun j => (instAt m j).result_id = id)

/-- The operand positions of `inst` that are `Id`-typed references to `id`. -/
def idPositions (inst : Instruction) (id : Nat) : List Nat :=
  (List.range inst.NumInOperands).filter
    (fun k => decide ((inst.GetInOperand k).ty = OperandType.Id ∧
                      (inst.GetInOperand k).word = id))

/-- Modelled from the spec: `for_each_use(id, visit)` /
`DefUseManager::ForEachUse` — every `(user, operand position)` pair in the
module referencing `id`. -/
def useList (m : Module) (id : Nat) : List (Nat × Nat) :=
  ((List.range m.insts.length).map
    (fun j => (idPositions (instAt m j) id).map (fun k => (j, k)))).flatten

/-- The first phase of `Process`: the real-use count of an identifier — the
`ForEachUse` callback increments `count` exactly when the user's opcode is
neither an annotation instruction nor a debug instruction of any tier. -/
def computeUseCount (m : Module) (id : Nat) : Nat :=
  (useList m id).foldl
    (fun count use =>
      if IsAnnotationInst (instAt m use.1).opcode ||
         IsDebug1Inst (instAt m use.1).opcode ||
         IsDebug2Inst (instAt m use.1).opcode ||
         IsDebug3Inst (instAt m use.1).opcode then count else count + 1)
    0

/-- The state of the worklist algorithm: the working list, the use-count
table (`none` = no entry in the `unordered_map`), the accumulated dead set,
and a flag recording whether the `SPIRV_ASSERT(use_counts[def_inst] > 0)`
consistency assertion has failed.  Counts are integers so that the observable
behavior of a (hypothetical) decrement of a zero `size_t` count — the result
is nonzero, hence no insertion into the working list — is preserved. -/
structure LoopState where
  working_list : Finset Nat
  use_counts : Nat → Option Int
  dead_consts : Finset Nat
  bad : Bool

/-- One operand step of the back-propagation switch: skip non-`Id` operands,
resolve the identifier, skip definitions without a use-count entry, otherwise
record the assertion check, decrement, and insert into the working list when
the count reaches zero. -/
def applyOp (m : Module) (s : LoopState) (op : Operand) : LoopState :=
  if op.ty = OperandType.Id then
    match GetDef m op.word with
    | none => s
    | some def_inst =>
      match s.use_counts def_inst with
      | none => s
      | some k =>
        { working_list :=
            if k - 1 = 0 then insert def_inst s.working_list else s.working_list
          use_counts := Function.update s.use_counts def_inst (some (k - 1))
          dead_consts := s.dead_consts
          bad := s.bad || decide (k ≤ 0) }
  else s

/-- The operand loop of the back-propagation switch, over a list of operands. -/
def stepOps (m : Module) : List Operand → LoopState → LoopState
  | [], s => s
  | op :: rest, s => stepOps m rest (applyOp m s op)

/-- One iteration of the worklist loop on a chosen instruction `inst`: run the
back-propagation switch when the opcode is `OpConstantComposite`,
`OpSpecConstantComposite` or `OpSpecConstantOp`, then move `inst` into the
dead set and erase it from the working list. -/
def processInst (m : Module) (i : Nat) (s : LoopState) : LoopState :=
  let s1 :=
    match (instAt m i).opcode with
    | SpvOp.OpConstantComposite => stepOps m (instAt m i).inOperands s
    | SpvOp.OpSpecConstantComposite => stepOps m (instAt m i).inOperands s
    | SpvOp.OpSpecConstantOp => stepOps m (instAt m i).inOperands s
    | _ => s
  { s1 with
    dead_consts := insert i s1.dead_consts
    working_list := s1.working_list.erase i }

/-- The worklist loop (`while (!working_list.empty())`), with fuel and with the
choice of `*working_list.begin()` abstracted into a selection function
`sel`. -/
def loop (m : Module) (sel : Finset Nat → Nat) : Nat → LoopState → LoopState
  | 0, s => s
  | fuel + 1, s =>
    if s.working_list.Nonempty then
      loop m sel fuel (processInst m (sel s.working_list) s)
    else s

/-- One step of the first phase of `Process`: record constant `c`'s use count
and seed `c` into the working list when the count is zero. -/
def initStep (m : Module) (s : LoopState) (c : Nat) : LoopState :=
  let count := computeUseCount m (instAt m c).result_id
  { working_list :=
      if count = 0 then insert c s.working_list else s.working_list
    use_counts := Function.update s.use_counts c (some (count : Int))
    dead_consts := s.dead_consts
    bad := s.bad }

/-- The initial state built by the first phase of `Process` from an enumeration
`cs` of the module's constants. -/
def initState (m : Module) (cs : List Nat) : LoopState :=
  cs.foldl (initStep m) ⟨∅, fun _ => none, ∅, false⟩

/-- The state after the worklist loop of `Process`, for enumeration `cs` and
selection function `sel`; `cs.length` iterations of fuel always suffice. -/
def runStateWith (m : Module) (cs : List Nat) (sel : Finset Nat → Nat) :
    LoopState :=
  loop m sel cs.length (initState m cs)

/-- The final dead-constant set of the pass (as indices into `m.insts`). -/
def deadConsts (m : Module) (sel : Finset Nat → Nat) : Finset Nat :=
  (runStateWith m (GetConstants m) sel).dead_consts

/-- Modelled from the spec: `DefUseManager::ForEachUser` — the set of
instructions using identifier `id`. -/
def usersOf (m : Module) (id : Nat) : Finset Nat :=
  ((useList m id).map Prod.fst).toFinset

/-- The third phase of `Process`: the annotation/debug instructions that use a
dead constant (`dead_others`), computed from a given dead set. -/
def deadOthersOf (m : Module) (dead : Finset Nat) : Finset Nat :=
  dead.biUnion
    (fun dc => (usersOf m (instAt m dc).result_id).filter
      (fun u => IsMetadataInst (instAt m u).opcode))

/-- The final dead-metadata set of the pass. -/
def deadOthers (m : Module) (sel : Finset Nat → Nat) : Finset Nat :=
  deadOthersOf m (deadConsts m sel)

/-- `Pass::Status`. -/
inductive Status where
  | SuccessWithoutChange
  | SuccessWithChange
  | Failure
  deriving DecidableEq, Repr

/-- The return value of `Process`. -/
def processStatus (m : Module) (sel : Finset Nat → Nat) : Status :=
  if deadConsts m sel = ∅ then Status.SuccessWithoutChange
  else Status.SuccessWithChange

/-- The instruction indices nop-ed by the `KillDef` loop: `KillDef` is invoked
on each dead constant's result id and kills that identifier's defining
instruction. -/
def killedDefs (m : Module) (dead : Finset Nat) : Finset Nat :=
  dead.biUnion
    (fun dc =>
      match GetDef m (instAt m dc).result_id with
      | none => ∅
      | some j => {j})

/-- Modelled from the spec: the module after the deletion phase — `KillDef` on
every dead constant's result id and `KillInst` on every dead metadata
instruction turn the corresponding instructions to nop. -/
def outputModule (m : Module) (sel : Finset Nat → Nat) : Module :=
  ⟨(List.range m.insts.length).map
    (fun j =>
      if j ∈ killedDefs m (deadConsts m sel) ∨ j ∈ deadOthers m sel
      then nopInst else instAt m j)⟩

/-- The whole pass: final status and resulting module. -/
def Process (m : Module) (sel : Finset Nat → Nat) : Status × Module :=
  (processStatus m sel, outputModule m sel)

/-- The default selection function: an arbitrary but computable choice of an
element of the working list, standing in for `*working_list.begin()`. -/
def selMin (s : Finset Nat) : Nat :=
  if h : s.Nonempty then s.min' h else 0

/-- A selection function is valid when it picks a member of any nonempty set. -/
def ValidSel (sel : Finset Nat → Nat) : Prop :=
  ∀ s : Finset Nat, s.Nonempty → sel s ∈ s

theorem validSel_selMin : ValidSel selMin := by
  intro s hs
  simp only [selMin, dif_pos hs]
  exact s.min'_mem hs

/-! ### Declarative counting quantities -/

/-- The set of the module's constant-defining instruction indices. -/
def constFinset (m : Module) : Finset Nat :=
  (GetConstants m).toFinset

/-- The number of constant-defining instructions of the module. -/
def numConst (m : Module) : Nat :=
  (GetConstants m).length

/-- The number of `Id`-typed operands of `inst` referencing `id`. -/
def occCount (inst : Instruction) (id : Nat) : Nat :=
  inst.inOperands.countP
    (fun op => decide (op.ty = OperandType.Id ∧ op.word = id))

/-- The use count the code computes for constant `c`: the real uses of `c`'s
result identifier. -/
def initCount (m : Module) (c : Nat) : Nat :=
  computeUseCount m (instAt m c).result_id

/-- The declarative form of `initCount`: summed over all instructions, the
`Id` operand occurrences of `c`'s result identifier in non-metadata users. -/
def realUses (m : Module) (c : Nat) : Nat :=
  ∑ j ∈ Finset.range m.insts.length,
    (if IsMetadataInst (instAt m j).opcode then 0
     else occCount (instAt m j) ((instAt m c).result_id))

/-- The number of operands in `ops` that are `Id`-typed and resolve (through
the def-use index) to instruction `c`. -/
def occList (m : Module) (ops : List Operand) (c : Nat) : Nat :=
  ops.countP
    (fun op => decide (op.ty = OperandType.Id ∧ GetDef m op.word = some c))

/-- The operands the back-propagation switch of `Process` inspects for the
instruction at index `i`: its input operands when its opcode is
`OpConstantComposite`, `OpSpecConstantComposite` or `OpSpecConstantOp`,
nothing otherwise. -/
def relevantOps (m : Module) (i : Nat) : List Operand :=
  match (instAt m i).opcode with
  | SpvOp.OpConstantComposite => (instAt m i).inOperands
  | SpvOp.OpSpecConstantComposite => (instAt m i).inOperands
  | SpvOp.OpSpecConstantOp => (instAt m i).inOperands
  | _ => []

/-- How many decrements instruction `j`, once processed by the worklist loop,
applies to the use count of instruction `c`. -/
def opUses (m : Module) (j c : Nat) : Nat :=
  occList m (relevantOps m j) c

/-- The total decrement a dead set `S` applies to the use count of `c`. -/
def decr (m : Module) (S : Finset Nat) (c : Nat) : Nat :=
  ∑ j ∈ S, opUses m j c

/-! ### Generic list-counting lemmas -/

theorem foldl_count_eq {α : Type} (p : α → Bool) (l : List α) (n : Nat) :
    l.foldl (fun c u => if p u then c else c + 1) n
      = n + l.countP (fun u => !p u) := by
  induction l generalizing n with
  | nil => simp
  | cons a t ih =>
    simp only [List.foldl_cons, List.countP_cons, ih]
    cases h : p a <;> simp [h] <;> omega

theorem countP_flatten_eq {α : Type} (p : α → Bool) (L : List (List α)) :
    L.flatten.countP p = (L.map (fun l => l.countP p)).sum := by
  induction L with
  | nil => simp
  | cons l t ih => simp [List.countP_append, ih]

theorem countP_range_getD {α : Type} (l : List α) (d : α) (p : α → Bool) :
    (List.range l.length).countP (fun k => p (l.getD k d)) = l.countP p := by
  induction l with
  | nil => simp
  | cons a t ih =>
    rw [List.length_cons, List.range_succ_eq_map, List.countP_cons,
      List.countP_map]
    simp only [List.getD_cons_zero, List.getD_cons_succ, Function.comp_def]
    rw [ih, List.countP_cons]

theorem list_map_range_sum (f : Nat → Nat) (n : Nat) :
    ((List.range n).map f).sum = ∑ j ∈ Finset.range n, f j := by
  induction n with
  | zero => simp
  | succ k ih =>
    rw [List.range_succ, List.map_append, List.sum_append,
      Finset.sum_range_succ, ih]
    simp

/-- The length of `idPositions` is the declarative occurrence count. -/
theorem length_idPositions (inst : Instruction) (id : Nat) :
    (idPositions inst id).length = occCount inst id := by
  rw [idPositions, ← List.countP_eq_length_filter]
  simp only [Instruction.NumInOperands, Instruction.GetInOperand]
  exact countP_range_getD inst.inOperands ⟨OperandType.Literal, 0⟩
    (fun op => decide (op.ty = OperandType.Id ∧ op.word = id))

/-- Counting users in the use list, declaratively: a per-instruction sum of
occurrence counts. -/
theorem countP_useList (m : Module) (id : Nat) (q : Nat → Bool) :
    (useList m id).countP (fun u => q u.1)
      = ∑ j ∈ Finset.range m.insts.length,
          (if q j then occCount (instAt m j) id else 0) := by
  rw [useList, countP_flatten_eq, List.map_map, ← list_map_range_sum]
  congr 1
  apply List.map_congr_left
  intro j _
  simp only [Function.comp_apply, List.countP_map]
  cases h : q j
  · simp only [Function.comp_def, h]
    exact List.countP_eq_zero.2 (fun _ _ => by simp)
  · simp only [Function.comp_def, h, if_true]
    rw [← length_idPositions]
    exact List.countP_eq_length.2 (fun _ _ => rfl)

/-- `computeUseCount` agrees with its declarative form. -/
theorem initCount_eq_realUses (m : Module) (c : Nat) :
    initCount m c = realUses m c := by
  rw [initCount, computeUseCount, foldl_count_eq, Nat.zero_add, realUses]
  have h := countP_useList m (instAt m c).result_id
    (fun j => !IsMetadataInst (instAt m j).opcode)
  rw [show (fun (u : Nat × Nat) =>
        !(IsAnnotationInst (instAt m u.1).opcode ||
          IsDebug1Inst (instAt m u.1).opcode ||
          IsDebug2Inst (instAt m u.1).opcode ||
          IsDebug3Inst (instAt m u.1).opcode))
      = (fun (u : Nat × Nat) => !IsMetadataInst (instAt m u.1).opcode) from rfl,
    h]
  apply Finset.sum_congr rfl
  intro j _
  cases hm : IsMetadataInst (instAt m j).opcode <;> simp [hm]

/-! ### Properties of the def-use resolution -/

theorem GetDef_eq_some {m : Module} {id j : Nat} (h : GetDef m id = some j) :
    id ≠ 0 ∧ j < m.insts.length ∧ (instAt m j).result_id = id := by
  by_cases h0 : id = 0
  · rw [GetDef, if_pos h0] at h
    exact absurd h (by simp)
  · rw [GetDef, if_neg h0] at h
    refine ⟨h0, ?_, ?_⟩
    · have := List.mem_of_find?_eq_some h
      simpa [List.mem_range] using this
    · have := List.find?_some h
      simpa using this

theorem opUses_zero_of_ge {m : Module} {j : Nat}
    (h : m.insts.length ≤ j) (c : Nat) : opUses m j c = 0 := by
  have : instAt m j = nopInst := List.getD_eq_default _ _ h
  simp [opUses, relevantOps, this, nopInst, occList]

/-- Per-instruction bound: the decrements `j` applies to `c` never exceed
`c`'s real-use occurrences in `j`. -/
theorem opUses_le_term (m : Module) (j c : Nat) :
    opUses m j c ≤
      if IsMetadataInst (instAt m j).opcode then 0
      else occCount (instAt m j) ((instAt m c).result_id) := by
  rw [opUses, relevantOps]
  have key : occList m (instAt m j).inOperands c ≤
      occCount (instAt m j) ((instAt m c).result_id) := by
    apply List.countP_mono_left
    intro op _ hop
    simp only [decide_eq_true_eq] at hop ⊢
    exact ⟨hop.1, ((GetDef_eq_some hop.2).2.2).symm⟩
  cases hop : (instAt m j).opcode <;>
    simp [occList, IsMetadataInst, IsAnnotationInst, IsDebug1Inst,
      IsDebug2Inst, IsDebug3Inst, hop] <;>
    simpa [occList, hop] using key

/-- The central counting bound: no matter which set `S` of instructions is
processed, the decrements it applies to `c` never exceed `c`'s initial real
use count. -/
theorem decr_le_realUses (m : Module) (S : Finset Nat) (c : Nat) :
    decr m S c ≤ realUses m c := by
  have h1 : decr m S c = ∑ j ∈ S.filter (fun j => j < m.insts.length),
      opUses m j c := by
    rw [decr]
    refine (Finset.sum_filter_of_ne ?_).symm
    intro j _ hj
    by_contra hge
    exact hj (opUses_zero_of_ge (Nat.le_of_not_lt hge) c)
  rw [h1, realUses]
  calc ∑ j ∈ S.filter (fun j => j < m.insts.length), opUses m j c
      ≤ ∑ j ∈ Finset.range m.insts.length, opUses m j c := by
        apply Finset.sum_le_sum_of_subset
        intro j hj
        simp only [Finset.mem_filter] at hj
        exact Finset.mem_range.2 hj.2
    _ ≤ _ := Finset.sum_le_sum (fun j _ => opUses_le_term m j c)

/-! ### Characterization of the operand loop -/

theorem applyOp_not_id {m : Module} {s : LoopState} {op : Operand}
    (h : ¬ op.ty = OperandType.Id) : applyOp m s op = s := by
  simp [applyOp, h]

theorem applyOp_no_def {m : Module} {s : LoopState} {op : Operand}
    (hty : op.ty = OperandType.Id) (hdef : GetDef m op.word = none) :
    applyOp m s op = s := by
  simp [applyOp, hty, hdef]

theorem applyOp_no_entry {m : Module} {s : LoopState} {op : Operand} {d : Nat}
    (hty : op.ty = OperandType.Id) (hdef : GetDef m op.word = some d)
    (hcnt : s.use_counts d = none) : applyOp m s op = s := by
  simp [applyOp, hty, hdef, hcnt]

theorem applyOp_entry {m : Module} {s : LoopState} {op : Operand} {d : Nat}
    {k : Int} (hty : op.ty = OperandType.Id)
    (hdef : GetDef m op.word = some d) (hcnt : s.use_counts d = some k) :
    applyOp m s op =
      { working_list :=
          if k - 1 = 0 then insert d s.working_list else s.working_list
        use_counts := Function.update s.use_counts d (some (k - 1))
        dead_consts := s.dead_consts
        bad := s.bad || decide (k ≤ 0) } := by
  simp [applyOp, hty, hdef, hcnt]

theorem occList_cons (m : Module) (op : Operand) (rest : List Operand)
    (c : Nat) :
    occList m (op :: rest) c = occList m rest c +
      (if op.ty = OperandType.Id ∧ GetDef m op.word = some c then 1 else 0) := by
  simp [occList, List.countP_cons]

/-- The full characterization of the operand loop: provided no operand would
decrement a count below the number of remaining occurrences (hypothesis `H`,
established from the global counting invariant), it decrements each entry by
its occurrence count, leaves the dead set and the assertion flag alone, and
inserts exactly the entries whose count just reached zero. -/
theorem stepOps_spec (m : Module) (ops : List Operand) (s : LoopState)
    (H : ∀ c k, s.use_counts c = some k → (occList m ops c : Int) ≤ k) :
    (∀ c, (stepOps m ops s).use_counts c
        = (s.use_counts c).map (fun k => k - (occList m ops c : Int))) ∧
    (stepOps m ops s).dead_consts = s.dead_consts ∧
    (stepOps m ops s).bad = s.bad ∧
    (∀ c, c ∈ (stepOps m ops s).working_list ↔
        c ∈ s.working_list ∨
        ∃ k : Int, s.use_counts c = some k ∧ k = (occList m ops c : Int) ∧
          1 ≤ k) := by
  induction ops generalizing s with
  | nil =>
    refine ⟨fun c => ?_, rfl, rfl, fun c => ?_⟩
    · cases h : s.use_counts c <;> simp [stepOps, occList, h]
    · simp only [stepOps, occList, List.countP_nil, Nat.cast_zero]
      constructor
      · exact fun h => Or.inl h
      · rintro (h | ⟨k, _, hk0, hk1⟩)
        · exact h
        · omega
  | cons op rest ih =>
    by_cases hty : op.ty = OperandType.Id
    · cases hdef : GetDef m op.word with
      | none =>
        have hs : applyOp m s op = s := applyOp_no_def hty hdef
        have hocc : ∀ c, occList m (op :: rest) c = occList m rest c := by
          intro c
          rw [occList_cons]
          simp [hdef]
        have H' : ∀ c k, s.use_counts c = some k →
            (occList m rest c : Int) ≤ k := by
          intro c k hk
          have := H c k hk
          rwa [hocc c] at this
        have := ih s H'
        simpa [stepOps, hs, hocc] using this
      | some d =>
        cases hcnt : s.use_counts d with
        | none =>
          have hs : applyOp m s op = s := applyOp_no_entry hty hdef hcnt
          have hoccne : ∀ c, c ≠ d →
              occList m (op :: rest) c = occList m rest c := by
            intro c hc
            rw [occList_cons, if_neg]
            · omega
            · rintro ⟨-, h2⟩
              rw [hdef] at h2
              exact hc (Option.some_injective _ h2).symm
          have hoccd : occList m (op :: rest) d = occList m rest d + 1 := by
            rw [occList_cons, if_pos ⟨hty, hdef⟩]
          have H' : ∀ c k, s.use_counts c = some k →
              (occList m rest c : Int) ≤ k := by
            intro c k hk
            by_cases hc : c = d
            · subst hc
              rw [hcnt] at hk
              exact absurd hk (by simp)
            · have := H c k hk
              rwa [hoccne c hc] at this
          obtain ⟨ih1, ih2, ih3, ih4⟩ := ih s H'
          rw [show stepOps m (op :: rest) s = stepOps m rest s by
            simp [stepOps, hs]]
          refine ⟨fun c => ?_, ih2, ih3, fun c => ?_⟩
          · by_cases hc : c = d
            · subst hc
              rw [ih1 c, hcnt]
              simp
            · rw [ih1 c, hoccne c hc]
          · rw [ih4 c]
            by_cases hc : c = d
            · subst hc
              rw [hcnt]
              simp
            · rw [hoccne c hc]
        | some k =>
          have hs := applyOp_entry (m := m) hty hdef hcnt
          have hoccne : ∀ c, c ≠ d →
              occList m (op :: rest) c = occList m rest c := by
            intro c hc
            rw [occList_cons, if_neg]
            · omega
            · rintro ⟨-, h2⟩
              rw [hdef] at h2
              exact hc (Option.some_injective _ h2).symm
          have hoccd : occList m (op :: rest) d = occList m rest d + 1 := by
            rw [occList_cons, if_pos ⟨hty, hdef⟩]
          have hkd : (occList m rest d : Int) + 1 ≤ k := by
            have := H d k hcnt
            rw [hoccd] at this
            push_cast at this
            omega
          have hk1 : 1 ≤ k := by
            have : (0 : Int) ≤ (occList m rest d : Int) := Int.natCast_nonneg _
            omega
          have hbad : (s.bad || decide (k ≤ 0)) = s.bad := by
            have : ¬ k ≤ 0 := by omega
            simp [this]
          set s' : LoopState :=
            { working_list :=
                if k - 1 = 0 then insert d s.working_list else s.working_list
              use_counts := Function.update s.use_counts d (some (k - 1))
              dead_consts := s.dead_consts
              bad := s.bad || decide (k ≤ 0) } with hs'
          have H' : ∀ c k', s'.use_counts c = some k' →
              (occList m rest c : Int) ≤ k' := by
            intro c k' hk'
            by_cases hc : c = d
            · subst hc
              rw [hs'] at hk'
              simp only [Function.update_same] at hk'
              have hkk : k' = k - 1 := (Option.some_injective _ hk').symm
              omega
            · rw [hs'] at hk'
              simp only [Function.update_noteq hc] at hk'
              have := H c k' hk'
              rwa [hoccne c hc] at this
          obtain ⟨ih1, ih2, ih3, ih4⟩ := ih s' H'
          rw [show stepOps m (op :: rest) s = stepOps m rest s' by
            simp [stepOps, hs, hs']]
          refine ⟨fun c => ?_, ?_, ?_, fun c => ?_⟩
          · by_cases hc : c = d
            · subst hc
              rw [ih1 c, hs']
              simp only [Function.update_same, hcnt, Option.map_some']
              rw [hoccd, Option.some_inj]
              push_cast
              ring
            · rw [ih1 c, hs']
              simp only [Function.update_noteq hc]
              rw [hoccne c hc]
          · rw [ih2, hs']
          · rw [ih3, hs', hbad]
          · rw [ih4 c]
            by_cases hc : c = d
            · subst hc
              simp only [hs', Function.update_same, hcnt]
              constructor
              · rintro (hw | ⟨k', hk', hke, hk1'⟩)
                · by_cases hz : k - 1 = 0
                  · rw [if_pos hz] at hw
                    rcases Finset.mem_insert.1 hw with h | h
                    · refine Or.inr ⟨k, rfl, ?_, hk1⟩
                      rw [hoccd]
                      push_cast
                      omega
                    · exact Or.inl h
                  · rw [if_neg hz] at hw
                    exact Or.inl hw
                · have hkk : k' = k - 1 := (Option.some_injective _ hk').symm
                  refine Or.inr ⟨k, rfl, ?_, hk1⟩
                  rw [hoccd]
                  push_cast
                  omega
              · rintro (hw | ⟨k', hk', hke, hk1'⟩)
                · refine Or.inl ?_
                  by_cases hz : k - 1 = 0
                  · rw [if_pos hz]
                    exact Finset.mem_insert_of_mem hw
                  · rw [if_neg hz]
                    exact hw
                · have hkk : k' = k := (Option.some_injective _ hk').symm
                  rw [hoccd] at hke
                  push_cast at hke
                  by_cases hz : k - 1 = 0
                  · refine Or.inl ?_
                    rw [if_pos hz]
                    exact Finset.mem_insert_self c _
                  · refine Or.inr ⟨k - 1, rfl, by omega, by omega⟩
            · simp only [hs', Function.update_noteq hc]
              rw [hoccne c hc]
              by_cases hz : k - 1 = 0 <;>
                simp [hz, Finset.mem_insert, hc]
    · have hs : applyOp m s op = s := applyOp_not_id hty
      have hocc : ∀ c, occList m (op :: rest) c = occList m rest c := by
        intro c
        rw [occList_cons, if_neg]
        · omega
        · rintro ⟨h1, -⟩
          exact hty h1
      have H' : ∀ c k, s.use_counts c = some k →
          (occList m rest c : Int) ≤ k := by
        intro c k hk
        have := H c k hk
        rwa [hocc c] at this
      have := ih s H'
      simpa [stepOps, hs, hocc] using this

/-! ### One iteration of the worklist loop -/

theorem processInst_eq (m : Module) (i : Nat) (s : LoopState) :
    processInst m i s =
      { stepOps m (relevantOps m i) s with
        dead_consts := insert i (stepOps m (relevantOps m i) s).dead_consts
        working_list :=
          (stepOps m (relevantOps m i) s).working_list.erase i } := by
  cases hop : (instAt m i).opcode <;>
    simp [processInst, relevantOps, hop, stepOps]

/-! ### The canonical fixpoint characterization of the dead set -/

/-- The one-step closure operator on candidate dead sets: the constants whose
entire real use count is accounted for by decrements from `S`. -/
def Fop (m : Module) (S : Finset Nat) : Finset Nat :=
  (constFinset m).filter (fun c => decr m S c = initCount m c)

/-- The least fixpoint of `Fop`, reached within `numConst m` iterations. -/
def lfpF (m : Module) : Finset Nat :=
  (Fop m)^[numConst m] ∅

theorem mem_constFinset {m : Module} {c : Nat} :
    c ∈ constFinset m ↔
      c < m.insts.length ∧ IsConstantInst (instAt m c).opcode := by
  simp [constFinset, GetConstants, List.mem_filter, List.mem_range]

theorem constFinset_subset_range (m : Module) :
    constFinset m ⊆ Finset.range m.insts.length := by
  intro c hc
  exact Finset.mem_range.2 (mem_constFinset.1 hc).1

theorem card_constFinset_le (m : Module) :
    (constFinset m).card ≤ numConst m :=
  (GetConstants m).toFinset_card_le

theorem decr_mono (m : Module) {S T : Finset Nat} (h : S ⊆ T) (c : Nat) :
    decr m S c ≤ decr m T c :=
  Finset.sum_le_sum_of_subset h

theorem decr_le_init (m : Module) (S : Finset Nat) (c : Nat) :
    decr m S c ≤ initCount m c := by
  rw [initCount_eq_realUses]
  exact decr_le_realUses m S c

theorem Fop_subset_const (m : Module) (S : Finset Nat) :
    Fop m S ⊆ constFinset m :=
  Finset.filter_subset _ _

theorem Fop_mono (m : Module) {S T : Finset Nat} (h : S ⊆ T) :
    Fop m S ⊆ Fop m T := by
  intro c hc
  rw [Fop, Finset.mem_filter] at hc ⊢
  refine ⟨hc.1, ?_⟩
  have h1 := decr_mono m h c
  have h2 := decr_le_init m T c
  omega

theorem Fop_iterate_subset_succ (m : Module) :
    ∀ k, (Fop m)^[k] ∅ ⊆ (Fop m)^[k + 1] ∅ := by
  intro k
  induction k with
  | zero => simp
  | succ j ih =>
    rw [Function.iterate_succ_apply', Function.iterate_succ_apply']
    exact Fop_mono m ih

theorem Fop_iterate_stab (m : Module) {k : Nat}
    (h : (Fop m)^[k + 1] ∅ = (Fop m)^[k] ∅) :
    ∀ j, k ≤ j → (Fop m)^[j] ∅ = (Fop m)^[k] ∅ := by
  intro j hkj
  induction j with
  | zero =>
    have : k = 0 := Nat.le_zero.1 hkj
    rw [this]
  | succ n ih =>
    rcases Nat.lt_or_ge k (n + 1) with hlt | hge
    · have hkn : k ≤ n := Nat.lt_succ_iff.1 hlt
      have hn := ih hkn
      rw [Function.iterate_succ_apply', hn]
      exact (Function.iterate_succ_apply' (Fop m) k ∅).symm.trans h
    · have : k = n + 1 := Nat.le_antisymm hkj hge
      rw [this]

theorem exists_stab (m : Module) :
    ∃ k, k ≤ numConst m ∧ (Fop m)^[k + 1] ∅ = (Fop m)^[k] ∅ := by
  by_contra hno
  push_neg at hno
  have hcard : ∀ k, k ≤ numConst m + 1 → k ≤ ((Fop m)^[k] ∅).card := by
    intro k
    induction k with
    | zero => intro _; exact Nat.zero_le _
    | succ j ihj =>
      intro hj1
      have hj : j ≤ numConst m := by omega
      have hne := hno j hj
      have hsub := Fop_iterate_subset_succ m j
      have hss : (Fop m)^[j] ∅ ⊂ (Fop m)^[j + 1] ∅ :=
        HasSubset.Subset.ssubset_of_ne hsub (fun he => hne he.symm)
      have hlt := Finset.card_lt_card hss
      have := ihj (by omega)
      omega
  have h1 := hcard (numConst m + 1) le_rfl
  have h2 : ((Fop m)^[numConst m + 1] ∅).card ≤ numConst m := by
    have hsub : (Fop m)^[numConst m + 1] ∅ ⊆ constFinset m := by
      rw [Function.iterate_succ_apply']
      exact Fop_subset_const m _
    calc ((Fop m)^[numConst m + 1] ∅).card
        ≤ (constFinset m).card := Finset.card_le_card hsub
      _ ≤ numConst m := card_constFinset_le m
  omega

theorem lfpF_fixed (m : Module) : Fop m (lfpF m) = lfpF m := by
  obtain ⟨k, hk, hstab⟩ := exists_stab m
  have hn := Fop_iterate_stab m hstab (numConst m) hk
  rw [lfpF, hn]
  exact (Function.iterate_succ_apply' (Fop m) k ∅).symm.trans hstab

theorem lfpF_least (m : Module) {D : Finset Nat} (hD : Fop m D = D) :
    lfpF m ⊆ D := by
  have h : ∀ k, (Fop m)^[k] ∅ ⊆ D := by
    intro k
    induction k with
    | zero => simp
    | succ j ih =>
      rw [Function.iterate_succ_apply']
      intro x hx
      exact hD ▸ Fop_mono m ih hx
  exact h (numConst m)

theorem lfpF_subset_const (m : Module) : lfpF m ⊆ constFinset m := by
  rw [← lfpF_fixed]
  exact Fop_subset_const m _

theorem mem_lfpF_of_zero (m : Module) {c : Nat} (hc : c ∈ constFinset m)
    (h0 : initCount m c = 0) : c ∈ lfpF m := by
  have h1 : c ∈ Fop m (lfpF m) := by
    rw [Fop, Finset.mem_filter]
    refine ⟨hc, ?_⟩
    have := decr_le_init m (lfpF m) c
    omega
  rwa [lfpF_fixed] at h1

/-! ### The loop invariant -/

/-- The global invariant of the worklist loop: the use-count table has
exactly the constants as domain and tracks `initial count − decrements from
the dead set`; working list and dead set contain only constants and are
disjoint; a constant's count has reached zero exactly when it is scheduled
(working) or retired (dead); the consistency assertion has never failed; and
everything scheduled or retired belongs to the canonical least fixpoint. -/
structure Inv (m : Module) (s : LoopState) : Prop where
  dom : ∀ c, (s.use_counts c).isSome ↔ c ∈ constFinset m
  counts_eq : ∀ c ∈ constFinset m,
    s.use_counts c =
      some ((initCount m c : Int) - (decr m s.dead_consts c : Int))
  work_sub : s.working_list ⊆ constFinset m
  dead_sub : s.dead_consts ⊆ constFinset m
  disj : ∀ c ∈ s.working_list, c ∉ s.dead_consts
  sched : ∀ c ∈ constFinset m,
    (decr m s.dead_consts c = initCount m c ↔
      c ∈ s.working_list ∨ c ∈ s.dead_consts)
  bad_eq : s.bad = false
  sub_lfp : ∀ c, c ∈ s.working_list ∨ c ∈ s.dead_consts → c ∈ lfpF m

/-! ### The initial state -/

theorem initState_foldl (m : Module) (cs : List Nat) (s : LoopState) :
    (∀ c, (cs.foldl (initStep m) s).use_counts c
        = if c ∈ cs then some ((initCount m c : Int)) else s.use_counts c) ∧
    (∀ c, c ∈ (cs.foldl (initStep m) s).working_list ↔
        (c ∈ cs ∧ initCount m c = 0) ∨ c ∈ s.working_list) ∧
    (cs.foldl (initStep m) s).dead_consts = s.dead_consts ∧
    (cs.foldl (initStep m) s).bad = s.bad := by
  induction cs generalizing s with
  | nil => simp
  | cons c0 rest ih =>
    rw [List.foldl_cons]
    obtain ⟨ih1, ih2, ih3, ih4⟩ := ih (initStep m s c0)
    have hcnt : computeUseCount m (instAt m c0).result_id = initCount m c0 :=
      rfl
    refine ⟨fun c => ?_, fun c => ?_, by rw [ih3, initStep], by rw [ih4, initStep]⟩
    · rw [ih1 c]
      by_cases hr : c ∈ rest
      · rw [if_pos hr, if_pos (List.mem_cons_of_mem c0 hr)]
      · rw [if_neg hr, initStep]
        simp only [hcnt]
        by_cases hc : c = c0
        · subst hc
          rw [Function.update_same, if_pos (List.mem_cons_self c rest)]
        · rw [Function.update_noteq hc, if_neg]
          simp [List.mem_cons, hc, hr]
    · rw [ih2 c]
      have hmem : c ∈ (initStep m s c0).working_list ↔
          (c = c0 ∧ initCount m c0 = 0) ∨ c ∈ s.working_list := by
        rw [initStep]
        simp only [hcnt]
        by_cases hz : initCount m c0 = 0
        · rw [if_pos hz]
          simp [Finset.mem_insert, hz]
        · rw [if_neg hz]
          simp [hz]
      rw [hmem]
      constructor
      · rintro (⟨hr, hic⟩ | ⟨⟨hc, hz⟩ | hw⟩)
        · exact Or.inl ⟨List.mem_cons_of_mem c0 hr, hic⟩
        · subst hc
          exact Or.inl ⟨List.mem_cons_self c rest, hz⟩
        · exact Or.inr hw
      · rintro (⟨hmc, hic⟩ | hw)
        · rcases List.mem_cons.1 hmc with hc | hr
          · subst hc
            exact Or.inr (Or.inl ⟨rfl, hic⟩)
          · exact Or.inl ⟨hr, hic⟩
        · exact Or.inr (Or.inr hw)

theorem initState_counts (m : Module) (cs : List Nat) (c : Nat) :
    (initState m cs).use_counts c
      = if c ∈ cs then some ((initCount m c : Int)) else none :=
  (initState_foldl m cs ⟨∅, fun _ => none, ∅, false⟩).1 c

theorem initState_working (m : Module) (cs : List Nat) (c : Nat) :
    c ∈ (initState m cs).working_list ↔ c ∈ cs ∧ initCount m c = 0 := by
  have h := (initState_foldl m cs ⟨∅, fun _ => none, ∅, false⟩).2.1 c
  simpa using h

theorem initState_dead (m : Module) (cs : List Nat) :
    (initState m cs).dead_consts = ∅ :=
  (initState_foldl m cs ⟨∅, fun _ => none, ∅, false⟩).2.2.1

theorem initState_bad (m : Module) (cs : List Nat) :
    (initState m cs).bad = false :=
  (initState_foldl m cs ⟨∅, fun _ => none, ∅, false⟩).2.2.2

theorem decr_empty (m : Module) (c : Nat) : decr m ∅ c = 0 :=
  Finset.sum_empty

/-- The invariant holds after the first phase, for any enumeration of the
constants. -/
theorem inv_initState (m : Module) (cs : List Nat)
    (hcs : cs.toFinset = constFinset m) : Inv m (initState m cs) := by
  have hmem : ∀ c, c ∈ cs ↔ c ∈ constFinset m := by
    intro c
    rw [← hcs, List.mem_toFinset]
  refine ⟨?_, ?_, ?_, ?_, ?_, ?_, initState_bad m cs, ?_⟩
  · intro c
    rw [initState_counts]
    by_cases hc : c ∈ cs
    · simp only [if_pos hc, Option.isSome_some, true_iff]
      exact (hmem c).1 hc
    · rw [if_neg hc]
      constructor
      · intro h
        exact absurd h (by simp)
      · intro h
        exact absurd ((hmem c).2 h) hc
  · intro c hc
    rw [initState_counts, if_pos ((hmem c).2 hc), initState_dead, decr_empty]
    simp
  · intro c hc
    rw [initState_working] at hc
    exact (hmem c).1 hc.1
  · rw [initState_dead]
    exact Finset.empty_subset _
  · intro c hc
    rw [initState_dead]
    exact Finset.not_mem_empty c
  · intro c hc
    rw [initState_dead, decr_empty, initState_working]
    constructor
    · intro h0
      exact Or.inl ⟨(hmem c).2 hc, h0.symm⟩
    · rintro (⟨-, h0⟩ | habs)
      · exact h0.symm
      · exact absurd habs (Finset.not_mem_empty c)
  · intro c hc
    rcases hc with hw | hd
    · rw [initState_working] at hw
      exact mem_lfpF_of_zero m ((hmem c).1 hw.1) hw.2
    · rw [initState_dead] at hd
      exact absurd hd (Finset.not_mem_empty c)

/-! ### Preservation of the invariant by one loop iteration -/

theorem inv_step (m : Module) {s : LoopState} (hInv : Inv m s) {i : Nat}
    (hi : i ∈ s.working_list) : Inv m (processInst m i s) := by
  have hic : i ∈ constFinset m := hInv.work_sub hi
  have hind : i ∉ s.dead_consts := hInv.disj i hi
  have hdecr_ins : ∀ c, decr m (insert i s.dead_consts) c
      = opUses m i c + decr m s.dead_consts c := by
    intro c
    rw [decr, Finset.sum_insert hind]
    rfl
  have hbound : ∀ c, opUses m i c + decr m s.dead_consts c ≤ initCount m c := by
    intro c
    rw [← hdecr_ins c]
    exact decr_le_init m _ c
  have hocc : ∀ c, occList m (relevantOps m i) c = opUses m i c := fun _ => rfl
  have H : ∀ c k, s.use_counts c = some k →
      (occList m (relevantOps m i) c : Int) ≤ k := by
    intro c k hk
    have hcc : c ∈ constFinset m := by
      rw [← hInv.dom c, hk]
      rfl
    have hce := hInv.counts_eq c hcc
    rw [hk] at hce
    have hkval : k = (initCount m c : Int) - (decr m s.dead_consts c : Int) :=
      Option.some_injective _ hce
    have hb := hbound c
    have he := hocc c
    omega
  obtain ⟨h1, h2, h3, h4⟩ := stepOps_spec m (relevantOps m i) s H
  have hdom : ∀ c, ((stepOps m (relevantOps m i) s).use_counts c).isSome
      ↔ c ∈ constFinset m := by
    intro c
    rw [h1 c, ← hInv.dom c]
    cases s.use_counts c <;> simp
  have hins_lfp : ∀ x ∈ insert i s.dead_consts, x ∈ lfpF m := by
    intro x hx
    rcases Finset.mem_insert.1 hx with hx | hx
    · exact hInv.sub_lfp x (Or.inl (hx ▸ hi))
    · exact hInv.sub_lfp x (Or.inr hx)
  have hwork_char : ∀ c, c ∈ constFinset m →
      (c ∈ (stepOps m (relevantOps m i) s).working_list ↔
        c ∈ s.working_list ∨
        (opUses m i c + decr m s.dead_consts c = initCount m c ∧
          decr m s.dead_consts c < initCount m c)) := by
    intro c hc
    rw [h4 c]
    have hce := hInv.counts_eq c hc
    constructor
    · rintro (hw | ⟨k, hk, hke, hk1⟩)
      · exact Or.inl hw
      · rw [hce] at hk
        have hkval : (initCount m c : Int) - (decr m s.dead_consts c : Int)
            = k := Option.some_injective _ hk
        rw [hocc c] at hke
        have hd := decr_le_init m s.dead_consts c
        refine Or.inr ⟨by omega, by omega⟩
    · rintro (hw | ⟨heq, hlt⟩)
      · exact Or.inl hw
      · refine Or.inr ⟨(initCount m c : Int) - (decr m s.dead_consts c : Int),
          hce, ?_, by omega⟩
        rw [hocc c]
        omega
  rw [processInst_eq]
  refine ⟨?_, ?_, ?_, ?_, ?_, ?_, ?_, ?_⟩
  · exact hdom
  · intro c hc
    show (stepOps m (relevantOps m i) s).use_counts c = _
    rw [h1 c, hInv.counts_eq c hc, h2, hdecr_ins c, Option.map_some',
      Option.some_inj, hocc c]
    push_cast
    ring
  · intro c hcw
    have hcw2 := Finset.mem_of_mem_erase hcw
    rw [h4 c] at hcw2
    rcases hcw2 with hw | ⟨k, hk, -, -⟩
    · exact hInv.work_sub hw
    · rw [← hInv.dom c, hk]
      rfl
  · intro c hcd
    rw [h2] at hcd
    rcases Finset.mem_insert.1 hcd with hc | hc
    · exact hc ▸ hic
    · exact hInv.dead_sub hc
  · intro c hcw hcd
    have hcne := Finset.ne_of_mem_erase hcw
    have hcw2 := Finset.mem_of_mem_erase hcw
    have hcc : c ∈ constFinset m := by
      rw [h4 c] at hcw2
      rcases hcw2 with hw | ⟨k, hk, -, -⟩
      · exact hInv.work_sub hw
      · rw [← hInv.dom c, hk]
        rfl
    rw [h2] at hcd
    rcases Finset.mem_insert.1 hcd with hc | hc
    · exact hcne hc
    · rw [hwork_char c hcc] at hcw2
      rcases hcw2 with hw | ⟨-, hlt⟩
      · exact hInv.disj c hw hc
      · have := (hInv.sched c hcc).2 (Or.inr hc)
        omega
  · intro c hc
    show decr m (insert i (stepOps m (relevantOps m i) s).dead_consts) c
        = initCount m c ↔ _
    rw [h2, hdecr_ins c]
    have hb := hbound c
    have hd := decr_le_init m s.dead_consts c
    have hso := hInv.sched c hc
    constructor
    · intro heq
      by_cases hci : c = i
      · exact Or.inr (Finset.mem_insert.2 (Or.inl hci))
      · by_cases hsw : c ∈ s.working_list ∨ c ∈ s.dead_consts
        · rcases hsw with hw | hdd
          · refine Or.inl (Finset.mem_erase.2 ⟨hci, ?_⟩)
            rw [hwork_char c hc]
            exact Or.inl hw
          · refine Or.inr ?_
            show c ∈ insert i s.dead_consts
            exact Finset.mem_insert_of_mem hdd
        · have hne : ¬ decr m s.dead_consts c = initCount m c :=
            fun h => hsw (hso.1 h)
          refine Or.inl (Finset.mem_erase.2 ⟨hci, ?_⟩)
          rw [hwork_char c hc]
          exact Or.inr ⟨heq, by omega⟩
    · intro hmem
      rcases hmem with hw | hdd
      · have hcw2 := Finset.mem_of_mem_erase hw
        rw [hwork_char c hc] at hcw2
        rcases hcw2 with hw2 | ⟨heq, -⟩
        · have : decr m s.dead_consts c = initCount m c := hso.2 (Or.inl hw2)
          omega
        · exact heq
      · have hdd1 : c ∈ insert i s.dead_consts := hdd
        rcases Finset.mem_insert.1 hdd1 with hci | hdd2
        · subst hci
          have : decr m s.dead_consts c = initCount m c := hso.2 (Or.inl hi)
          omega
        · have : decr m s.dead_consts c = initCount m c := hso.2 (Or.inr hdd2)
          omega
  · show (stepOps m (relevantOps m i) s).bad = false
    rw [h3]
    exact hInv.bad_eq
  · intro c hcwd
    rcases hcwd with hw | hdd
    · have hcw2 := Finset.mem_of_mem_erase hw
      have hcc : c ∈ constFinset m := by
        rw [h4 c] at hcw2
        rcases hcw2 with hw2 | ⟨k, hk, -, -⟩
        · exact hInv.work_sub hw2
        · rw [← hInv.dom c, hk]
          rfl
      rw [hwork_char c hcc] at hcw2
      rcases hcw2 with hw2 | ⟨heq, -⟩
      · exact hInv.sub_lfp c (Or.inl hw2)
      · have hsub : insert i s.dead_consts ⊆ lfpF m := hins_lfp
        have hle1 : decr m (insert i s.dead_consts) c ≤ decr m (lfpF m) c :=
          decr_mono m hsub c
        have hle2 : decr m (lfpF m) c ≤ initCount m c := decr_le_init m _ c
        have heq2 : decr m (insert i s.dead_consts) c = initCount m c := by
          rw [hdecr_ins c]
          exact heq
        have hmemF : c ∈ Fop m (lfpF m) := by
          rw [Fop, Finset.mem_filter]
          exact ⟨hcc, by omega⟩
        rwa [lfpF_fixed] at hmemF
    · rw [h2] at hdd
      rcases Finset.mem_insert.1 hdd with hci | hdd2
      · exact hInv.sub_lfp c (Or.inl (hci ▸ hi))
      · exact hInv.sub_lfp c (Or.inr hdd2)

/-! ### Unconditional bookkeeping facts about one iteration -/

theorem applyOp_dead (m : Module) (s : LoopState) (op : Operand) :
    (applyOp m s op).dead_consts = s.dead_consts := by
  unfold applyOp
  split
  · split
    · rfl
    · split
      · rfl
      · rfl
  · rfl

theorem stepOps_dead (m : Module) (ops : List Operand) (s : LoopState) :
    (stepOps m ops s).dead_consts = s.dead_consts := by
  induction ops generalizing s with
  | nil => rfl
  | cons op rest ih =>
    rw [stepOps, ih, applyOp_dead]

theorem processInst_dead (m : Module) (i : Nat) (s : LoopState) :
    (processInst m i s).dead_consts = insert i s.dead_consts := by
  rw [processInst_eq]
  show insert i (stepOps m (relevantOps m i) s).dead_consts = _
  rw [stepOps_dead]

/-! ### The worklist loop -/

theorem loop_of_empty (m : Module) (sel : Finset Nat → Nat) (fuel : Nat)
    {s : LoopState} (h : s.working_list = ∅) : loop m sel fuel s = s := by
  cases fuel with
  | zero => rfl
  | succ k =>
    rw [loop, if_neg]
    rw [h]
    exact Finset.not_nonempty_empty

theorem loop_add (m : Module) (sel : Finset Nat → Nat) (a b : Nat)
    (s : LoopState) :
    loop m sel (a + b) s = loop m sel b (loop m sel a s) := by
  induction a generalizing s with
  | zero =>
    rw [Nat.zero_add]
    rfl
  | succ a ih =>
    rw [Nat.succ_add, loop, loop]
    by_cases hne : s.working_list.Nonempty
    · rw [if_pos hne, if_pos hne, ih]
    · rw [if_neg hne, if_neg hne,
        loop_of_empty m sel b (Finset.not_nonempty_iff_eq_empty.1 hne)]

theorem inv_loop (m : Module) (sel : Finset Nat → Nat)
    (hsel : ValidSel sel) (fuel : Nat) :
    ∀ {s : LoopState}, Inv m s → Inv m (loop m sel fuel s) := by
  induction fuel with
  | zero => intro s h; exact h
  | succ f ih =>
    intro s hInv
    rw [loop]
    by_cases hne : s.working_list.Nonempty
    · rw [if_pos hne]
      exact ih (inv_step m hInv (hsel _ hne))
    · rw [if_neg hne]
      exact hInv

theorem loop_progress (m : Module) (sel : Finset Nat → Nat)
    (hsel : ValidSel sel) (fuel : Nat) :
    ∀ {s : LoopState}, Inv m s →
      (loop m sel fuel s).working_list = ∅ ∨
      s.dead_consts.card + fuel ≤ (loop m sel fuel s).dead_consts.card := by
  induction fuel with
  | zero =>
    intro s _
    right
    rw [loop]
    omega
  | succ f ih =>
    intro s hInv
    rw [loop]
    by_cases hne : s.working_list.Nonempty
    · rw [if_pos hne]
      have hiw := hsel _ hne
      have hInv' := inv_step m hInv hiw
      have hdead : (processInst m (sel s.working_list) s).dead_consts
          = insert (sel s.working_list) s.dead_consts :=
        processInst_dead m _ s
      have hnotin : sel s.working_list ∉ s.dead_consts :=
        hInv.disj _ hiw
      have hcins : (processInst m (sel s.working_list) s).dead_consts.card
          = s.dead_consts.card + 1 := by
        rw [hdead, Finset.card_insert_of_not_mem hnotin]
      rcases ih hInv' with he | hcard
      · exact Or.inl he
      · right
        omega
    · rw [if_neg hne]
      exact Or.inl (Finset.not_nonempty_iff_eq_empty.1 hne)

/-- The loop always drains the working list within `cs.length` iterations. -/
theorem runState_working_empty (m : Module) (cs : List Nat)
    (sel : Finset Nat → Nat) (hcs : cs.toFinset = constFinset m)
    (hsel : ValidSel sel) :
    (runStateWith m cs sel).working_list = ∅ := by
  have hInv0 := inv_initState m cs hcs
  have hInvF : Inv m (runStateWith m cs sel) :=
    inv_loop m sel hsel cs.length hInv0
  rcases loop_progress m sel hsel cs.length hInv0 with he | hcard
  · exact he
  · rw [initState_dead, Finset.card_empty] at hcard
    have hr : runStateWith m cs sel = loop m sel cs.length (initState m cs) :=
      rfl
    rw [← hr] at hcard
    have hlen : (constFinset m).card ≤ cs.length := by
      rw [← hcs]
      exact cs.toFinset_card_le
    have hsub : (runStateWith m cs sel).dead_consts ⊆ constFinset m :=
      hInvF.dead_sub
    have hcardle : (runStateWith m cs sel).dead_consts.card
        ≤ (constFinset m).card := Finset.card_le_card hsub
    have hdeq : (runStateWith m cs sel).dead_consts = constFinset m :=
      Finset.eq_of_subset_of_card_le hsub (by omega)
    rw [Finset.eq_empty_iff_forall_not_mem]
    intro c hcw
    have hcc : c ∈ constFinset m := hInvF.work_sub hcw
    rw [← hdeq] at hcc
    exact hInvF.disj c hcw hcc

/-- Master theorem: whatever the enumeration order of the constants and
whatever the worklist selection order, the final dead set is the canonical
least fixpoint `lfpF`. -/
theorem runState_dead_eq_lfpF (m : Module) (cs : List Nat)
    (sel : Finset Nat → Nat) (hcs : cs.toFinset = constFinset m)
    (hsel : ValidSel sel) :
    (runStateWith m cs sel).dead_consts = lfpF m := by
  have hInvF : Inv m (runStateWith m cs sel) :=
    inv_loop m sel hsel cs.length (inv_initState m cs hcs)
  have hwe := runState_working_empty m cs sel hcs hsel
  have hfix : Fop m (runStateWith m cs sel).dead_consts
      = (runStateWith m cs sel).dead_consts := by
    ext c
    rw [Fop, Finset.mem_filter]
    constructor
    · rintro ⟨hc, heq⟩
      rcases (hInvF.sched c hc).1 heq with hw | hd
      · rw [hwe] at hw
        exact absurd hw (Finset.not_mem_empty c)
      · exact hd
    · intro hd
      have hc := hInvF.dead_sub hd
      exact ⟨hc, (hInvF.sched c hc).2 (Or.inr hd)⟩
  apply Finset.Subset.antisymm
  · intro c hc
    exact hInvF.sub_lfp c (Or.inr hc)
  · exact lfpF_least m hfix

theorem GetConstants_toFinset (m : Module) :
    (GetConstants m).toFinset = constFinset m := rfl

theorem deadConsts_eq_lfpF (m : Module) (sel : Finset Nat → Nat)
    (hsel : ValidSel sel) : deadConsts m sel = lfpF m :=
  runState_dead_eq_lfpF m (GetConstants m) sel (GetConstants_toFinset m) hsel

/-- The final state satisfies the invariant. -/
theorem inv_runState (m : Module) (cs : List Nat) (sel : Finset Nat → Nat)
    (hcs : cs.toFinset = constFinset m) (hsel : ValidSel sel) :
    Inv m (runStateWith m cs sel) :=
  inv_loop m sel hsel cs.length (inv_initState m cs hcs)

/-! ### Well-formed modules -/

/-- Well-formedness of a module, reflecting the SPIR-V grammar facts the pass
relies on: result identifiers are unique (SSA form), constant-defining
instructions other than `OpConstantComposite`, `OpSpecConstantComposite` and
`OpSpecConstantOp` carry no identifier operands, and every constant-defining
instruction has a nonzero result identifier. -/
def WellFormed (m : Module) : Prop :=
  (∀ i, i < m.insts.length → ∀ j, j < m.insts.length →
    (instAt m i).result_id ≠ 0 →
    (instAt m i).result_id = (instAt m j).result_id → i = j) ∧
  (∀ j, j < m.insts.length → IsConstantInst (instAt m j).opcode →
    (instAt m j).opcode ≠ SpvOp.OpConstantComposite →
    (instAt m j).opcode ≠ SpvOp.OpSpecConstantComposite →
    (instAt m j).opcode ≠ SpvOp.OpSpecConstantOp →
    ∀ op ∈ (instAt m j).inOperands, op.ty ≠ OperandType.Id) ∧
  (∀ j, j < m.insts.length → IsConstantInst (instAt m j).opcode →
    (instAt m j).result_id ≠ 0)

instance wellFormedDecidable (m : Module) : Decidable (WellFormed m) :=
  decidable_of_iff
    ((∀ i, i < m.insts.length → ∀ j, j < m.insts.length →
        (instAt m i).result_id ≠ 0 →
        (instAt m i).result_id = (instAt m j).result_id → i = j) ∧
     (∀ j, j < m.insts.length → ∀ op ∈ (instAt m j).inOperands,
        ¬(IsConstantInst (instAt m j).opcode = true ∧
          (instAt m j).opcode ≠ SpvOp.OpConstantComposite ∧
          (instAt m j).opcode ≠ SpvOp.OpSpecConstantComposite ∧
          (instAt m j).opcode ≠ SpvOp.OpSpecConstantOp ∧
          op.ty = OperandType.Id)) ∧
     (∀ j, j < m.insts.length → IsConstantInst (instAt m j).opcode →
        (instAt m j).result_id ≠ 0))
    (by
      constructor
      · rintro ⟨h1, h2, h3⟩
        refine ⟨h1, ?_, h3⟩
        intro j hj hc hn1 hn2 hn3 op hop hty
        exact h2 j hj op hop ⟨hc, hn1, hn2, hn3, hty⟩
      · rintro ⟨h1, h2, h3⟩
        refine ⟨h1, ?_, h3⟩
        intro j hj op hop
        rintro ⟨hc, hn1, hn2, hn3, hty⟩
        exact h2 j hj hc hn1 hn2 hn3 op hop hty)

theorem GetDef_rid_self {m : Module} (hwf : WellFormed m) {c : Nat}
    (hc : c ∈ constFinset m) : GetDef m (instAt m c).result_id = some c := by
  obtain ⟨hlt, hop⟩ := mem_constFinset.1 hc
  have hrid : (instAt m c).result_id ≠ 0 := hwf.2.2 c hlt hop
  rw [GetDef, if_neg hrid]
  cases hfind : (List.range m.insts.length).find?
      (fun j => (instAt m j).result_id = (instAt m c).result_id) with
  | none =>
    exfalso
    have hnone := List.find?_eq_none.1 hfind c
      (List.mem_range.2 hlt)
    simp at hnone
  | some j0 =>
    have hp := List.find?_some hfind
    have hj0 : j0 < m.insts.length :=
      List.mem_range.1 (List.mem_of_find?_eq_some hfind)
    simp only [decide_eq_true_eq] at hp
    have : j0 = c := hwf.1 j0 hj0 c hlt (hp ▸ hrid) hp
    rw [this]

theorem const_not_metadata {op : SpvOp} (h : IsConstantInst op = true) :
    IsMetadataInst op = false := by
  cases op <;> revert h <;> decide

/-- Under well-formedness, the decrements a dead constant `j` applies to a
constant `c` coincide with `j`'s raw occurrence count of `c`'s identifier. -/
theorem occCount_eq_opUses {m : Module} (hwf : WellFormed m) {j c : Nat}
    (hj : j ∈ constFinset m) (hc : c ∈ constFinset m) :
    occCount (instAt m j) ((instAt m c).result_id) = opUses m j c := by
  obtain ⟨hjlt, hjop⟩ := mem_constFinset.1 hj
  by_cases h1 : (instAt m j).opcode = SpvOp.OpConstantComposite ∨
      (instAt m j).opcode = SpvOp.OpSpecConstantComposite ∨
      (instAt m j).opcode = SpvOp.OpSpecConstantOp
  · have hrel : relevantOps m j = (instAt m j).inOperands := by
      rcases h1 with h | h | h <;> rw [relevantOps, h]
    rw [opUses, hrel, occCount, occList]
    apply List.countP_congr
    intro op _
    simp only [decide_eq_true_eq]
    constructor
    · rintro ⟨hty, hw⟩
      exact ⟨hty, by rw [hw, GetDef_rid_self hwf hc]⟩
    · rintro ⟨hty, hw⟩
      refine ⟨hty, ?_⟩
      exact ((GetDef_eq_some hw).2.2).symm
  · push_neg at h1
    obtain ⟨hn1, hn2, hn3⟩ := h1
    have hno := hwf.2.1 j hjlt hjop hn1 hn2 hn3
    have hrel : relevantOps m j = [] := by
      rw [relevantOps]
      cases hop2 : (instAt m j).opcode <;> simp_all
    rw [opUses, hrel, occCount]
    have : occList m [] c = 0 := rfl
    rw [this]
    apply List.countP_eq_zero.2
    intro op hop
    simp only [decide_eq_true_eq]
    rintro ⟨hty, -⟩
    exact hno op hop hty

/-! ### Membership characterizations for uses and dead metadata -/

theorem mem_idPositions {inst : Instruction} {id pos : Nat} :
    pos ∈ idPositions inst id ↔
      pos < inst.NumInOperands ∧
      (inst.GetInOperand pos).ty = OperandType.Id ∧
      (inst.GetInOperand pos).word = id := by
  rw [idPositions]
  simp [List.mem_filter, List.mem_range, and_assoc]

theorem mem_useList {m : Module} {id u pos : Nat} :
    (u, pos) ∈ useList m id ↔
      u < m.insts.length ∧ pos ∈ idPositions (instAt m u) id := by
  rw [useList]
  simp only [List.mem_flatten, List.mem_map, List.mem_range]
  constructor
  · rintro ⟨l, ⟨j, hj, rfl⟩, hmem⟩
    obtain ⟨k, hk, hpair⟩ := List.mem_map.1 hmem
    obtain ⟨h1, h2⟩ := Prod.mk.injEq j k u pos ▸ hpair
    subst h1
    subst h2
    exact ⟨hj, hk⟩
  · rintro ⟨hu, hpos⟩
    exact ⟨(idPositions (instAt m u) id).map (fun k => (u, k)),
      ⟨u, hu, rfl⟩, List.mem_map.2 ⟨pos, hpos, rfl⟩⟩

theorem mem_usersOf {m : Module} {id a : Nat} :
    a ∈ usersOf m id ↔ ∃ pos, (a, pos) ∈ useList m id := by
  rw [usersOf, List.mem_toFinset, List.mem_map]
  constructor
  · rintro ⟨⟨u, pos⟩, hmem, rfl⟩
    exact ⟨pos, hmem⟩
  · rintro ⟨pos, hmem⟩
    exact ⟨(a, pos), hmem, rfl⟩

theorem mem_deadOthersOf {m : Module} {dead : Finset Nat} {a : Nat} :
    a ∈ deadOthersOf m dead ↔
      IsMetadataInst (instAt m a).opcode = true ∧
      ∃ d ∈ dead, a ∈ usersOf m (instAt m d).result_id := by
  rw [deadOthersOf]
  simp only [Finset.mem_biUnion, Finset.mem_filter]
  constructor
  · rintro ⟨d, hd, hu, hm⟩
    exact ⟨hm, d, hd, hu⟩
  · rintro ⟨hm, d, hd, hu⟩
    exact ⟨d, hd, hu, hm⟩

/-! ### The deletion phase -/

theorem killedDefs_eq {m : Module} (hwf : WellFormed m) {dead : Finset Nat}
    (hsub : dead ⊆ constFinset m) : killedDefs m dead = dead := by
  ext j
  rw [killedDefs, Finset.mem_biUnion]
  constructor
  · rintro ⟨dc, hdc, hj⟩
    rw [GetDef_rid_self hwf (hsub hdc)] at hj
    simp only [Finset.mem_singleton] at hj
    exact hj ▸ hdc
  · intro hj
    refine ⟨j, hj, ?_⟩
    rw [GetDef_rid_self hwf (hsub hj)]
    exact Finset.mem_singleton_self j

theorem getD_map_range {α : Type} (f : Nat → α) {n j : Nat} (hj : j < n)
    (d : α) : ((List.range n).map f).getD j d = f j := by
  have h1 : j < ((List.range n).map f).length := by simpa using hj
  rw [List.getD_eq_getElem _ _ h1]
  simp

theorem outputModule_length (m : Module) (sel : Finset Nat → Nat) :
    (outputModule m sel).insts.length = m.insts.length := by
  rw [outputModule]
  simp

theorem outputModule_instAt (m : Module) (sel : Finset Nat → Nat) {j : Nat}
    (hj : j < m.insts.length) :
    instAt (outputModule m sel) j =
      if j ∈ killedDefs m (deadConsts m sel) ∨ j ∈ deadOthers m sel
      then nopInst else instAt m j := by
  rw [instAt, outputModule]
  exact getD_map_range _ hj _

theorem outputModule_instAt_ge (m : Module) (sel : Finset Nat → Nat) {j : Nat}
    (hj : m.insts.length ≤ j) : instAt (outputModule m sel) j = nopInst := by
  rw [instAt]
  apply List.getD_eq_default
  rw [outputModule_length]
  exact hj

/-! ### Concrete example modules -/

/-- Scenario C: `%1 = OpConstant 1`, `%2 = OpConstantComposite [%1]`, and `%2`
has no real use. -/
def moduleC : Module :=
  ⟨[⟨SpvOp.OpConstant, 1, [⟨OperandType.Literal, 1⟩]⟩,
    ⟨SpvOp.OpConstantComposite, 2, [⟨OperandType.Id, 1⟩]⟩]⟩

/-- Scenario B: `%1 = OpConstant 1`, `%2 = OpConstantComposite [%1, %1]`, and
`%2` has one real use. -/
def moduleB : Module :=
  ⟨[⟨SpvOp.OpConstant, 1, [⟨OperandType.Literal, 1⟩]⟩,
    ⟨SpvOp.OpConstantComposite, 2, [⟨OperandType.Id, 1⟩, ⟨OperandType.Id, 1⟩]⟩,
    ⟨SpvOp.OpStore, 0, [⟨OperandType.Id, 2⟩]⟩]⟩

/-- A module whose decoration references both a dead constant (`%1`) and a
live constant (`%2`). -/
def moduleMixed : Module :=
  ⟨[⟨SpvOp.OpConstant, 1, []⟩,
    ⟨SpvOp.OpConstant, 2, []⟩,
    ⟨SpvOp.OpStore, 0, [⟨OperandType.Id, 2⟩]⟩,
    ⟨SpvOp.OpDecorate, 0, [⟨OperandType.Id, 1⟩, ⟨OperandType.Id, 2⟩]⟩]⟩

/-- A module with a type-defining instruction used by a constant, so that a
back-propagation step resolves an operand to a non-constant definition. -/
def moduleTy : Module :=
  ⟨[⟨SpvOp.OpTypeInt, 1, []⟩,
    ⟨SpvOp.OpSpecConstantOp, 2,
      [⟨OperandType.SubOpcode, 7⟩, ⟨OperandType.Id, 1⟩]⟩]⟩

/-- A maximum-based selection function, a second order of drawing from the
working set. -/
def selMax (s : Finset Nat) : Nat :=
  if h : s.Nonempty then s.max' h else 0

theorem validSel_selMax : ValidSel selMax := by
  intro s hs
  simp only [selMax, dif_pos hs]
  exact s.max'_mem hs

/-- The status computed from a dead set, as the final ternary of `Process`. -/
def statusOf (dead : Finset Nat) : Status :=
  if dead = ∅ then Status.SuccessWithoutChange else Status.SuccessWithChange

theorem processStatus_eq (m : Module) (sel : Finset Nat → Nat) :
    processStatus m sel = statusOf (deadConsts m sel) := rfl

/-! ### Claim theorems -/

/-- C2: the computed use count of a constant `c` equals exactly the number of
`(user, operand position)` uses of `c`'s result identifier whose user's
opcode is neither an annotation instruction nor a debug instruction of tier
1, 2 or 3; and `c` is seeded into the initial working set iff this count is
zero. -/
theorem use_count_exact (m : Module) (c : Nat) (hc : c ∈ GetConstants m) :
    computeUseCount m (instAt m c).result_id =
      ((useList m (instAt m c).result_id).filter
        (fun u => !(IsAnnotationInst (instAt m u.1).opcode ||
                    IsDebug1Inst (instAt m u.1).opcode ||
                    IsDebug2Inst (instAt m u.1).opcode ||
                    IsDebug3Inst (instAt m u.1).opcode))).length ∧
    (c ∈ (initState m (GetConstants m)).working_list ↔
      computeUseCount m (instAt m c).result_id = 0) := by
  constructor
  · rw [computeUseCount, foldl_count_eq, Nat.zero_add,
      List.countP_eq_length_filter]
  · rw [initState_working]
    have hini : initCount m c = computeUseCount m (instAt m c).result_id := rfl
    constructor
    · rintro ⟨-, h0⟩
      rw [← hini]
      exact h0
    · intro h0
      exact ⟨hc, by rw [hini]; exact h0⟩

theorem use_count_exact_witness :
    computeUseCount moduleC (instAt moduleC 0).result_id =
      ((useList moduleC (instAt moduleC 0).result_id).filter
        (fun u => !(IsAnnotationInst (instAt moduleC u.1).opcode ||
                    IsDebug1Inst (instAt moduleC u.1).opcode ||
                    IsDebug2Inst (instAt moduleC u.1).opcode ||
                    IsDebug3Inst (instAt moduleC u.1).opcode))).length ∧
    (0 ∈ (initState moduleC (GetConstants moduleC)).working_list ↔
      computeUseCount moduleC (instAt moduleC 0).result_id = 0) :=
  use_count_exact moduleC 0 (by decide)

/-- C8: `Process` reports "succeeded without change" iff the final dead set
is empty, "succeeded with change" iff it is nonempty, and never reports
failure. -/
theorem status_report (m : Module) (sel : Finset Nat → Nat) :
    (processStatus m sel = Status.SuccessWithoutChange ↔
      deadConsts m sel = ∅) ∧
    (processStatus m sel = Status.SuccessWithChange ↔
      ¬ deadConsts m sel = ∅) ∧
    ¬ processStatus m sel = Status.Failure := by
  by_cases h : deadConsts m sel = ∅ <;> simp [processStatus, h]

/-- C1 (amended): an instruction is in the dead-metadata set iff it is an
annotation/debug instruction that references at least one dead constant —
regardless of whether it also references live constants. -/
theorem dead_metadata_exact (m : Module) (sel : Finset Nat → Nat) (a : Nat) :
    a ∈ deadOthers m sel ↔
      IsMetadataInst (instAt m a).opcode = true ∧
      ∃ d ∈ deadConsts m sel, ∃ pos,
        (a, pos) ∈ useList m (instAt m d).result_id := by
  rw [deadOthers, mem_deadOthersOf]
  simp only [mem_usersOf]

/-- C1 counterexample: in `moduleMixed`, the decoration (instruction 3)
references the live constant `%2` (instruction 1, not dead) at operand
position 1, yet it is placed in the dead-metadata set and nop-ed — refuting
"an annotation/debug instruction referencing at least one live constant is
preserved". -/
theorem dead_metadata_counterexample :
    IsMetadataInst (instAt moduleMixed 3).opcode = true ∧
    (3, 1) ∈ useList moduleMixed (instAt moduleMixed 1).result_id ∧
    1 ∉ deadConsts moduleMixed selMin ∧
    3 ∈ deadOthers moduleMixed selMin ∧
    instAt (outputModule moduleMixed selMin) 3 = nopInst ∧
    ¬ instAt moduleMixed 3 = nopInst := by decide

/-- C5: use counts are inspected and decremented only for composite constants,
spec composite constants and spec-constant operations; a non-identifier
operand (in particular the embedded sub-opcode of a spec-constant operation)
never changes the state; an identifier operand resolving to no definition, or
to a definition without a use-count entry, is silently ignored; and the
use-list (hence the initial count) only ever contains identifier-typed
operand positions. -/
theorem non_reference_operand_safety (m : Module) (s : LoopState) (i : Nat)
    (op : Operand) (w d : Nat) :
    ((instAt m i).opcode ≠ SpvOp.OpConstantComposite →
      (instAt m i).opcode ≠ SpvOp.OpSpecConstantComposite →
      (instAt m i).opcode ≠ SpvOp.OpSpecConstantOp →
      (processInst m i s).use_counts = s.use_counts) ∧
    (¬ op.ty = OperandType.Id → applyOp m s op = s) ∧
    applyOp m s ⟨OperandType.SubOpcode, w⟩ = s ∧
    (op.ty = OperandType.Id → GetDef m op.word = none → applyOp m s op = s) ∧
    (op.ty = OperandType.Id → GetDef m op.word = some d →
      s.use_counts d = none → applyOp m s op = s) ∧
    (∀ u pos, (u, pos) ∈ useList m w →
      ((instAt m u).GetInOperand pos).ty = OperandType.Id) := by
  refine ⟨?_, ?_, ?_, ?_, ?_, ?_⟩
  · intro h1 h2 h3
    have hrel : relevantOps m i = [] := by
      rw [relevantOps]
      cases hop2 : (instAt m i).opcode <;> simp_all
    rw [processInst_eq]
    show (stepOps m (relevantOps m i) s).use_counts = s.use_counts
    rw [hrel]
    rfl
  · exact applyOp_not_id
  · exact applyOp_not_id (fun h => OperandType.noConfusion h)
  · exact fun hty hdef => applyOp_no_def hty hdef
  · exact fun hty hdef hcnt => applyOp_no_entry hty hdef hcnt
  · intro u pos hmem
    exact (mem_idPositions.1 (mem_useList.1 hmem).2).2.1

theorem non_reference_operand_safety_witness :
    (processInst moduleTy 0 (initState moduleTy (GetConstants moduleTy))).use_counts 0 = none ∧
    applyOp moduleTy (initState moduleTy (GetConstants moduleTy))
      ⟨OperandType.SubOpcode, 7⟩ =
      initState moduleTy (GetConstants moduleTy) ∧
    applyOp moduleTy (initState moduleTy (GetConstants moduleTy))
      ⟨OperandType.Id, 99⟩ =
      initState moduleTy (GetConstants moduleTy) ∧
    applyOp moduleTy (initState moduleTy (GetConstants moduleTy))
      ⟨OperandType.Id, 1⟩ =
      initState moduleTy (GetConstants moduleTy) ∧
    ((instAt moduleTy 1).GetInOperand 1).ty = OperandType.Id := by
  have h0 := non_reference_operand_safety moduleTy
    (initState moduleTy (GetConstants moduleTy)) 0
    ⟨OperandType.SubOpcode, 7⟩ 7 0
  have h1 := non_reference_operand_safety moduleTy
    (initState moduleTy (GetConstants moduleTy)) 0 ⟨OperandType.Id, 99⟩ 99 0
  have h2 := non_reference_operand_safety moduleTy
    (initState moduleTy (GetConstants moduleTy)) 0 ⟨OperandType.Id, 1⟩ 1 0
  refine ⟨?_, h0.2.2.1, ?_, ?_, ?_⟩
  · rw [(non_reference_operand_safety moduleTy
      (initState moduleTy (GetConstants moduleTy)) 0 ⟨OperandType.Id, 1⟩ 1
      0).1 (by decide) (by decide) (by decide)]
    decide
  · exact h1.2.2.2.1 (by decide) (by decide)
  · exact h2.2.2.2.2.1 (by decide) (by decide) (by decide)
  · exact h2.2.2.2.2.2 1 1 (by decide)

/-- C4: the internal-consistency assertion of the back-propagation loop
(`use_counts[def_inst] > 0` immediately before every decrement) never fails:
after any number of iterations, for any module, any enumeration of its
constants and any selection order, the defect flag is still clear. -/
theorem assertion_unreachable (m : Module) (cs : List Nat)
    (sel : Finset Nat → Nat) (hcs : cs.toFinset = constFinset m)
    (hsel : ValidSel sel) (fuel : Nat) :
    (loop m sel fuel (initState m cs)).bad = false :=
  (inv_loop m sel hsel fuel (inv_initState m cs hcs)).bad_eq

theorem assertion_unreachable_witness :
    (loop moduleC selMin 2 (initState moduleC (GetConstants moduleC))).bad
      = false :=
  assertion_unreachable moduleC (GetConstants moduleC) selMin
    (GetConstants_toFinset moduleC) validSel_selMin 2

/-- C7: the worklist loop terminates — `numConst m` iterations of fuel always
drain the working list; and whenever the working list is nonempty, the next
iteration moves exactly the selected instruction into the dead set, that
instruction was not dead before (no instruction re-enters after retiring),
and the dead set grows by exactly one. -/
theorem worklist_terminates (m : Module) (sel : Finset Nat → Nat)
    (hsel : ValidSel sel) :
    (loop m sel (numConst m)
      (initState m (GetConstants m))).working_list = ∅ ∧
    ∀ fuel,
      (loop m sel fuel (initState m (GetConstants m))).working_list.Nonempty →
      (loop m sel (fuel + 1) (initState m (GetConstants m))).dead_consts
          = insert
              (sel (loop m sel fuel
                (initState m (GetConstants m))).working_list)
              (loop m sel fuel (initState m (GetConstants m))).dead_consts ∧
      sel (loop m sel fuel (initState m (GetConstants m))).working_list
          ∉ (loop m sel fuel (initState m (GetConstants m))).dead_consts ∧
      (loop m sel (fuel + 1)
          (initState m (GetConstants m))).dead_consts.card
        = (loop m sel fuel
            (initState m (GetConstants m))).dead_consts.card + 1 := by
  constructor
  · exact runState_working_empty m (GetConstants m) sel
      (GetConstants_toFinset m) hsel
  · intro fuel hne
    have hInvF : Inv m (loop m sel fuel (initState m (GetConstants m))) :=
      inv_loop m sel hsel fuel
        (inv_initState m (GetConstants m) (GetConstants_toFinset m))
    have hstep : loop m sel (fuel + 1) (initState m (GetConstants m))
        = processInst m
            (sel (loop m sel fuel (initState m (GetConstants m))).working_list)
            (loop m sel fuel (initState m (GetConstants m))) := by
      rw [loop_add m sel fuel 1, loop, if_pos hne]
      rfl
    have hni : sel (loop m sel fuel
        (initState m (GetConstants m))).working_list
        ∉ (loop m sel fuel (initState m (GetConstants m))).dead_consts :=
      hInvF.disj _ (hsel _ hne)
    refine ⟨?_, hni, ?_⟩
    · rw [hstep, processInst_dead]
    · rw [hstep, processInst_dead, Finset.card_insert_of_not_mem hni]

theorem worklist_terminates_witness :
    (loop moduleC selMin (numConst moduleC)
      (initState moduleC (GetConstants moduleC))).working_list = ∅ ∧
    (loop moduleC selMin (0 + 1)
        (initState moduleC (GetConstants moduleC))).dead_consts
      = insert
          (selMin (loop moduleC selMin 0
            (initState moduleC (GetConstants moduleC))).working_list)
          (loop moduleC selMin 0
            (initState moduleC (GetConstants moduleC))).dead_consts ∧
    selMin (loop moduleC selMin 0
        (initState moduleC (GetConstants moduleC))).working_list
      ∉ (loop moduleC selMin 0
          (initState moduleC (GetConstants moduleC))).dead_consts ∧
    (loop moduleC selMin (0 + 1)
        (initState moduleC (GetConstants moduleC))).dead_consts.card
      = (loop moduleC selMin 0
          (initState moduleC (GetConstants moduleC))).dead_consts.card + 1 :=
  ⟨(worklist_terminates moduleC selMin validSel_selMin).1,
   (worklist_terminates moduleC selMin validSel_selMin).2 0 (by decide)⟩

/-- C6: the final dead set, the dead-metadata set and the reported status are
independent of both the order in which the module's constants are enumerated
(any permutation of the enumeration) and the order in which instructions are
drawn from the unordered working set (any valid selection function). -/
theorem order_insensitive (m : Module) (cs1 cs2 : List Nat)
    (sel1 sel2 : Finset Nat → Nat)
    (hp1 : cs1.Perm (GetConstants m)) (hp2 : cs2.Perm (GetConstants m))
    (hs1 : ValidSel sel1) (hs2 : ValidSel sel2) :
    (runStateWith m cs1 sel1).dead_consts
        = (runStateWith m cs2 sel2).dead_consts ∧
    deadOthersOf m (runStateWith m cs1 sel1).dead_consts
        = deadOthersOf m (runStateWith m cs2 sel2).dead_consts ∧
    statusOf (runStateWith m cs1 sel1).dead_consts
        = statusOf (runStateWith m cs2 sel2).dead_consts := by
  have hc1 : cs1.toFinset = constFinset m :=
    (List.toFinset_eq_of_perm _ _ hp1).trans (GetConstants_toFinset m)
  have hc2 : cs2.toFinset = constFinset m :=
    (List.toFinset_eq_of_perm _ _ hp2).trans (GetConstants_toFinset m)
  have hd : (runStateWith m cs1 sel1).dead_consts
      = (runStateWith m cs2 sel2).dead_consts := by
    rw [runState_dead_eq_lfpF m cs1 sel1 hc1 hs1,
      runState_dead_eq_lfpF m cs2 sel2 hc2 hs2]
  exact ⟨hd, by rw [hd], by rw [hd]⟩

theorem order_insensitive_witness :
    (runStateWith moduleC (GetConstants moduleC) selMin).dead_consts
        = (runStateWith moduleC
            (GetConstants moduleC).reverse selMax).dead_consts ∧
    deadOthersOf moduleC
        (runStateWith moduleC (GetConstants moduleC) selMin).dead_consts
      = deadOthersOf moduleC
          (runStateWith moduleC
            (GetConstants moduleC).reverse selMax).dead_consts ∧
    statusOf (runStateWith moduleC (GetConstants moduleC) selMin).dead_consts
      = statusOf (runStateWith moduleC
          (GetConstants moduleC).reverse selMax).dead_consts :=
  order_insensitive moduleC (GetConstants moduleC)
    (GetConstants moduleC).reverse selMin selMax (List.Perm.refl _)
    ((GetConstants moduleC).reverse_perm) validSel_selMin validSel_selMax

/-- C10: at every point of the loop, the working list and the dead set hold
only constant-defining instructions; hence kill-definition is invoked only on
result identifiers of constant-defining instructions, kill-instruction only
on annotation/debug instructions using a dead constant, and every other
instruction of the module is left untouched by the pass. -/
theorem only_constants_touched (m : Module) (sel : Finset Nat → Nat)
    (hsel : ValidSel sel) :
    (∀ fuel,
      (loop m sel fuel
          (initState m (GetConstants m))).working_list ⊆ constFinset m ∧
      (loop m sel fuel
          (initState m (GetConstants m))).dead_consts ⊆ constFinset m) ∧
    (∀ d ∈ deadConsts m sel, IsConstantInst (instAt m d).opcode = true) ∧
    (∀ a ∈ deadOthers m sel, IsMetadataInst (instAt m a).opcode = true ∧
      ∃ d ∈ deadConsts m sel, a ∈ usersOf m (instAt m d).result_id) ∧
    (∀ j, j < m.insts.length → j ∉ killedDefs m (deadConsts m sel) →
      j ∉ deadOthers m sel → instAt (outputModule m sel) j = instAt m j) := by
  refine ⟨?_, ?_, ?_, ?_⟩
  · intro fuel
    have hInvF : Inv m (loop m sel fuel (initState m (GetConstants m))) :=
      inv_loop m sel hsel fuel
        (inv_initState m (GetConstants m) (GetConstants_toFinset m))
    exact ⟨hInvF.work_sub, hInvF.dead_sub⟩
  · intro d hd
    have hInvF : Inv m (runStateWith m (GetConstants m) sel) :=
      inv_runState m (GetConstants m) sel (GetConstants_toFinset m) hsel
    exact (mem_constFinset.1 (hInvF.dead_sub hd)).2
  · intro a ha
    exact mem_deadOthersOf.1 ha
  · intro j hj hk ho
    rw [outputModule_instAt m sel hj, if_neg]
    rintro (h | h)
    · exact hk h
    · exact ho h

theorem only_constants_touched_witness :
    (loop moduleMixed selMin 1
        (initState moduleMixed (GetConstants moduleMixed))).working_list
      ⊆ constFinset moduleMixed ∧
    IsConstantInst (instAt moduleMixed 0).opcode = true ∧
    IsMetadataInst (instAt moduleMixed 3).opcode = true ∧
    instAt (outputModule moduleMixed selMin) 2 = instAt moduleMixed 2 :=
  ⟨((only_constants_touched moduleMixed selMin validSel_selMin).1 1).1,
   (only_constants_touched moduleMixed selMin validSel_selMin).2.1 0
     (by decide),
   ((only_constants_touched moduleMixed selMin validSel_selMin).2.2.1 3
     (by decide)).1,
   (only_constants_touched moduleMixed selMin validSel_selMin).2.2.2 2
     (by decide) (by decide) (by decide)⟩

/-- C3: a constant all of whose uses are metadata instructions or constants
that end up in the dead set is itself in the dead set and is nop-ed from the
module. -/
theorem dead_propagation_complete (m : Module) (sel : Finset Nat → Nat)
    (hwf : WellFormed m) (hsel : ValidSel sel) (c : Nat)
    (hc : c ∈ constFinset m)
    (husers : ∀ p ∈ useList m ((instAt m c).result_id),
      IsMetadataInst (instAt m p.1).opcode = true ∨
      p.1 ∈ deadConsts m sel) :
    c ∈ deadConsts m sel ∧ instAt (outputModule m sel) c = nopInst := by
  have hInvF : Inv m (runStateWith m (GetConstants m) sel) :=
    inv_runState m (GetConstants m) sel (GetConstants_toFinset m) hsel
  have hwe := runState_working_empty m (GetConstants m) sel
    (GetConstants_toFinset m) hsel
  have hdsub : deadConsts m sel ⊆ constFinset m := hInvF.dead_sub
  have hdrange : deadConsts m sel ⊆ Finset.range m.insts.length :=
    fun j hj => constFinset_subset_range m (hdsub hj)
  -- the whole real-use count of c is accounted for by the dead set
  have hkey : decr m (deadConsts m sel) c = initCount m c := by
    have hle : decr m (deadConsts m sel) c ≤ initCount m c :=
      decr_le_init m _ c
    have hterm : ∀ j ∈ Finset.range m.insts.length,
        (if IsMetadataInst (instAt m j).opcode then 0
         else occCount (instAt m j) ((instAt m c).result_id))
          ≤ (if j ∈ deadConsts m sel then opUses m j c else 0) := by
      intro j hj
      by_cases hmeta : IsMetadataInst (instAt m j).opcode
      · simp [hmeta]
      · rw [if_neg hmeta]
        by_cases hocc0 : occCount (instAt m j) ((instAt m c).result_id) = 0
        · simp [hocc0]
        · have hpos : 0 < (idPositions (instAt m j)
              ((instAt m c).result_id)).length := by
            rw [length_idPositions]
            omega
          obtain ⟨pos, hpos2⟩ :=
            List.exists_mem_of_length_pos hpos
          have huse : (j, pos) ∈ useList m ((instAt m c).result_id) :=
            mem_useList.2 ⟨Finset.mem_range.1 hj, hpos2⟩
          rcases husers (j, pos) huse with hm | hd
          · exact absurd hm hmeta
          · rw [if_pos hd,
              occCount_eq_opUses hwf (hdsub hd) hc]

    have hge : initCount m c ≤ decr m (deadConsts m sel) c := by
      rw [initCount_eq_realUses, realUses]
      calc ∑ j ∈ Finset.range m.insts.length,
            (if IsMetadataInst (instAt m j).opcode then 0
             else occCount (instAt m j) ((instAt m c).result_id))
          ≤ ∑ j ∈ Finset.range m.insts.length,
              (if j ∈ deadConsts m sel then opUses m j c else 0) :=
            Finset.sum_le_sum hterm
        _ = ∑ j ∈ Finset.range m.insts.length ∩ deadConsts m sel,
              opUses m j c := Finset.sum_ite_mem _ _ _
        _ = decr m (deadConsts m sel) c := by
            rw [Finset.inter_eq_right.2 hdrange, decr]
    omega
  have hdead : c ∈ deadConsts m sel := by
    rcases (hInvF.sched c hc).1 hkey with hw | hd
    · rw [hwe] at hw
      exact absurd hw (Finset.not_mem_empty c)
    · exact hd
  refine ⟨hdead, ?_⟩
  rw [outputModule_instAt m sel (mem_constFinset.1 hc).1, if_pos]
  exact Or.inl (by rw [killedDefs_eq hwf hdsub]; exact hdead)

theorem dead_propagation_complete_witness :
    (0 ∈ deadConsts moduleC selMin ∧
      instAt (outputModule moduleC selMin) 0 = nopInst) ∧
    (1 ∈ deadConsts moduleC selMin ∧
      instAt (outputModule moduleC selMin) 1 = nopInst) :=
  ⟨dead_propagation_complete moduleC selMin (by decide) validSel_selMin 0
      (by decide) (by decide),
   dead_propagation_complete moduleC selMin (by decide) validSel_selMin 1
      (by decide) (by decide)⟩

/-! ### Idempotence -/

theorem meta_not_const {op : SpvOp} (h : IsMetadataInst op = true) :
    IsConstantInst op = false := by
  cases op <;> revert h <;> decide

theorem IsMetadataInst_nop : IsMetadataInst nopInst.opcode = false := rfl

theorem occCount_nop (id : Nat) : occCount nopInst id = 0 := rfl

theorem deadOthers_meta {m : Module} {sel : Finset Nat → Nat} {a : Nat}
    (ha : a ∈ deadOthers m sel) : IsMetadataInst (instAt m a).opcode = true :=
  (mem_deadOthersOf.1 ha).1

theorem map_range_instAt (M : Module) :
    (List.range M.insts.length).map (fun j => instAt M j) = M.insts := by
  apply List.ext_getElem
  · simp
  · intro i h1 h2
    simp only [List.getElem_map, List.getElem_range]
    rw [instAt, List.getD_eq_getElem _ _ h2]

/-- C9: running the pass on the module produced by a first run (on any
well-formed module) finds an empty dead set and an empty dead-metadata set,
removes nothing, and reports "succeeded without change". -/
theorem pass_idempotent (m : Module) (sel sel2 : Finset Nat → Nat)
    (hwf : WellFormed m) (hsel : ValidSel sel) (hsel2 : ValidSel sel2) :
    deadConsts (outputModule m sel) sel2 = ∅ ∧
    deadOthers (outputModule m sel) sel2 = ∅ ∧
    processStatus (outputModule m sel) sel2 = Status.SuccessWithoutChange ∧
    outputModule (outputModule m sel) sel2 = outputModule m sel := by
  have hInvF : Inv m (runStateWith m (GetConstants m) sel) :=
    inv_runState m (GetConstants m) sel (GetConstants_toFinset m) hsel
  have hwe := runState_working_empty m (GetConstants m) sel
    (GetConstants_toFinset m) hsel
  have hdsub : deadConsts m sel ⊆ constFinset m := hInvF.dead_sub
  have hlen : (outputModule m sel).insts.length = m.insts.length :=
    outputModule_length m sel
  -- A: the instructions of the output module
  have hA : ∀ j, j < m.insts.length →
      instAt (outputModule m sel) j =
        if j ∈ deadConsts m sel ∨ j ∈ deadOthers m sel then nopInst
        else instAt m j := by
    intro j hj
    rw [outputModule_instAt m sel hj, killedDefs_eq hwf hdsub]
  -- B: the constants of the output module
  have hB : constFinset (outputModule m sel)
      = constFinset m \ deadConsts m sel := by
    ext j
    rw [mem_constFinset, Finset.mem_sdiff, mem_constFinset, hlen]
    by_cases hj : j < m.insts.length
    · by_cases hk : j ∈ deadConsts m sel ∨ j ∈ deadOthers m sel
      · rw [hA j hj, if_pos hk]
        have hnop : IsConstantInst nopInst.opcode = false := rfl
        simp only [hnop]
        constructor
        · rintro ⟨-, h⟩
          exact absurd h (by simp)
        · rintro ⟨⟨-, hco⟩, hnd⟩
          rcases hk with hk | hk
          · exact absurd hk hnd
          · rw [meta_not_const (deadOthers_meta hk)] at hco
            exact absurd hco (by simp)
      · rw [hA j hj, if_neg hk]
        push_neg at hk
        constructor
        · rintro ⟨-, hco⟩
          exact ⟨⟨hj, hco⟩, hk.1⟩
        · rintro ⟨⟨-, hco⟩, -⟩
          exact ⟨hj, hco⟩
    · constructor
      · rintro ⟨h, -⟩
        exact absurd h hj
      · rintro ⟨⟨h, -⟩, -⟩
        exact absurd h hj
  -- the output instruction of a surviving constant is unchanged
  have hsame : ∀ c ∈ constFinset (outputModule m sel),
      instAt (outputModule m sel) c = instAt m c := by
    intro c hc
    rw [hB, Finset.mem_sdiff] at hc
    obtain ⟨hcm, hcd⟩ := hc
    have hco : IsMetadataInst (instAt m c).opcode = false :=
      const_not_metadata (mem_constFinset.1 hcm).2
    rw [hA c (mem_constFinset.1 hcm).1, if_neg]
    rintro (h | h)
    · exact hcd h
    · rw [deadOthers_meta h] at hco
      exact absurd hco (by simp)
  -- C: the counting identity on the output module
  have hC : ∀ c ∈ constFinset (outputModule m sel),
      initCount (outputModule m sel) c + decr m (deadConsts m sel) c
        = initCount m c := by
    intro c hc
    have hcm : c ∈ constFinset m := by
      rw [hB, Finset.mem_sdiff] at hc
      exact hc.1
    have hrid : (instAt (outputModule m sel) c).result_id
        = (instAt m c).result_id := by rw [hsame c hc]
    rw [initCount_eq_realUses, initCount_eq_realUses, realUses, realUses,
      hlen, hrid]
    have hdrange : deadConsts m sel ⊆ Finset.range m.insts.length :=
      fun j hj => constFinset_subset_range m (hdsub hj)
    have hterm : ∀ j ∈ Finset.range m.insts.length,
        (if IsMetadataInst (instAt (outputModule m sel) j).opcode then 0
          else occCount (instAt (outputModule m sel) j)
            ((instAt m c).result_id))
          + (if j ∈ deadConsts m sel then opUses m j c else 0)
        = (if IsMetadataInst (instAt m j).opcode then 0
            else occCount (instAt m j) ((instAt m c).result_id)) := by
      intro j hjr
      have hj : j < m.insts.length := Finset.mem_range.1 hjr
      by_cases hjd : j ∈ deadConsts m sel
      · have hnop : instAt (outputModule m sel) j = nopInst := by
          rw [hA j hj, if_pos (Or.inl hjd)]
        have hjc : j ∈ constFinset m := hdsub hjd
        have hjnm : IsMetadataInst (instAt m j).opcode = false :=
          const_not_metadata (mem_constFinset.1 hjc).2
        rw [hnop, if_pos hjd, occCount_eq_opUses hwf hjc hcm]
        simp [IsMetadataInst_nop, occCount_nop, hjnm]
      · by_cases hjo : j ∈ deadOthers m sel
        · have hnop : instAt (outputModule m sel) j = nopInst := by
            rw [hA j hj, if_pos (Or.inr hjo)]
          rw [hnop, if_neg hjd]
          simp [IsMetadataInst_nop, occCount_nop, deadOthers_meta hjo]
        · have hne : ¬(j ∈ deadConsts m sel ∨ j ∈ deadOthers m sel) := by
            rintro (h | h)
            exacts [hjd h, hjo h]
          rw [hA j hj, if_neg hne, if_neg hjd, Nat.add_zero]
    calc (∑ j ∈ Finset.range m.insts.length,
            (if IsMetadataInst (instAt (outputModule m sel) j).opcode then 0
             else occCount (instAt (outputModule m sel) j)
               ((instAt m c).result_id)))
          + decr m (deadConsts m sel) c
        = ∑ j ∈ Finset.range m.insts.length,
            ((if IsMetadataInst (instAt (outputModule m sel) j).opcode then 0
              else occCount (instAt (outputModule m sel) j)
                ((instAt m c).result_id))
             + (if j ∈ deadConsts m sel then opUses m j c else 0)) := by
          rw [Finset.sum_add_distrib]
          congr 1
          rw [Finset.sum_ite_mem, Finset.inter_eq_right.2 hdrange, decr]
      _ = ∑ j ∈ Finset.range m.insts.length,
            (if IsMetadataInst (instAt m j).opcode then 0
             else occCount (instAt m j) ((instAt m c).result_id)) :=
          Finset.sum_congr rfl hterm
  -- D: every surviving constant has a positive use count in the output
  have hD : ∀ c ∈ constFinset (outputModule m sel),
      0 < initCount (outputModule m sel) c := by
    intro c hc
    have hcm : c ∈ constFinset m := by
      rw [hB, Finset.mem_sdiff] at hc
      exact hc.1
    have hcd : c ∉ deadConsts m sel := by
      rw [hB, Finset.mem_sdiff] at hc
      exact hc.2
    have hle := decr_le_init m (deadConsts m sel) c
    have hne : decr m (deadConsts m sel) c ≠ initCount m c := by
      intro heq
      rcases (hInvF.sched c hcm).1 heq with hw | hd
      · rw [hwe] at hw
        exact absurd hw (Finset.not_mem_empty c)
      · exact hcd hd
    have := hC c hc
    omega
  -- E: the least fixpoint of the output module is empty
  have hE : lfpF (outputModule m sel) = ∅ := by
    have hone : Fop (outputModule m sel) ∅ = ∅ := by
      rw [Finset.eq_empty_iff_forall_not_mem]
      intro c hc
      rw [Fop, Finset.mem_filter] at hc
      obtain ⟨hc1, hc2⟩ := hc
      have := hD c hc1
      rw [decr_empty] at hc2
      omega
    have hiter : ∀ k, (Fop (outputModule m sel))^[k] ∅ = ∅ := by
      intro k
      induction k with
      | zero => rfl
      | succ n ih => rw [Function.iterate_succ_apply', ih, hone]
    exact hiter _
  have hF : deadConsts (outputModule m sel) sel2 = ∅ := by
    rw [deadConsts_eq_lfpF (outputModule m sel) sel2 hsel2, hE]
  have hO : deadOthers (outputModule m sel) sel2 = ∅ := by
    rw [deadOthers, hF, deadOthersOf]
    exact Finset.biUnion_empty
  refine ⟨hF, hO, ?_, ?_⟩
  · rw [processStatus, if_pos hF]
  · have hK : killedDefs (outputModule m sel)
        (deadConsts (outputModule m sel) sel2) = ∅ := by
      rw [hF, killedDefs]
      exact Finset.biUnion_empty
    rw [outputModule, hK, hO]
    have hcongr : (List.range (outputModule m sel).insts.length).map
        (fun j => if j ∈ (∅ : Finset Nat) ∨ j ∈ (∅ : Finset Nat)
          then nopInst else instAt (outputModule m sel) j)
        = (List.range (outputModule m sel).insts.length).map
            (fun j => instAt (outputModule m sel) j) := by
      apply List.map_congr_left
      intro j _
      rw [if_neg]
      rintro (h | h) <;> exact absurd h (Finset.not_mem_empty j)
    rw [hcongr, map_range_instAt]

theorem pass_idempotent_witness :
    deadConsts (outputModule moduleC selMin) selMin = ∅ ∧
    deadOthers (outputModule moduleC selMin) selMin = ∅ ∧
    processStatus (outputModule moduleC selMin) selMin
      = Status.SuccessWithoutChange ∧
    outputModule (outputModule moduleC selMin) selMin
      = outputModule moduleC selMin :=
  pass_idempotent moduleC selMin selMin (by decide) validSel_selMin
    validSel_selMin

end SpvOpt
